import Mathlib

/-!
Verification of the policy-compiler pipeline (driver in src/src/main.rs).
The driver wires five stages: parse_file, PreAST.add_parsed_file,
AST.from_pre_ast, AST.analyze and CFEngine.generate_all.  The stage
implementations live in modules not present under src/, so each stage is
modelled from the design document; the driver itself is translated from
src/src/main.rs.
-/

/-- Modelled from the spec (section 3): parameters of a bundle have a name
and an optional default value. -/
structure Parameter where
  pname : String
  hasDefault : Bool
deriving Repr, DecidableEq

/-- Modelled from the spec (section 3): leaf statement kinds of a bundle
body: method calls, nested bundle calls, condition guards and variable
definitions.  Nesting of condition blocks is flattened to a single level,
which is enough for the call-graph and arity properties treated here. -/
inductive Statement where
  | methodCall (method : String) (args : List String)
  | bundleCall (target : String) (args : List String)
  | condition (expr : String)
  | variableDef (vname : String) (value : String)
deriving Repr, DecidableEq

/-- Modelled from the spec (section 3): a top-level declaration (bundle
definition) with its qualified name, parameter list, body and the identity
of the originating file. -/
structure Declaration where
  name : String
  params : List Parameter
  body : List Statement
  loc : String
deriving Repr, DecidableEq

/-- Names of the bundles called (directly) from the body of a declaration. -/
def Declaration.callTargets (d : Declaration) : List String :=
  d.body.filterMap fun s =>
    match s with
    | .bundleCall t _ => some t
    | _ => none

/-- Modelled from the spec (section 3): the fragment tree of one parsed file —
file identity plus its ordered top-level declarations. -/
structure SourceUnit where
  file : String
  declarations : List Declaration
deriving Repr, DecidableEq

/-- Modelled from the spec (section 7): duplicate-declaration error of the
Fragment Aggregator, carrying the clashing name and both locations. -/
structure DuplicateDeclarationError where
  name : String
  first_location : String
  second_location : String
deriving Repr, DecidableEq

/-- Modelled from the spec (section 3): the pre-resolution namespace
(PreAST), a mapping from qualified name to declaration built incrementally
as SourceUnits are added. -/
structure PreAST where
  decls : List Declaration
deriving Repr, DecidableEq

/-- Modelled from the spec (section 4.2): `new()` creates an empty
Namespace. -/
def PreAST.new : PreAST := ⟨[]⟩

/-- Qualified names registered in a namespace, in registration order. -/
def PreAST.names (p : PreAST) : List String := p.decls.map (·.name)

/-- Lookup of a declaration by qualified name. -/
def lookupName (decls : List Declaration) (n : String) : Option Declaration :=
  decls.find? (fun d => d.name = n)

/-- Scan the declarations of a source unit for a name that clashes either
with the namespace contents or with an earlier declaration of the same
unit; returns the first clash found, if any. -/
def findDup (ns : List Declaration) (l : List Declaration) : Option DuplicateDeclarationError :=
  match l with
  | [] => none
  | d :: rest =>
    match lookupName ns d.name with
    | some prev => some ⟨d.name, prev.loc, d.loc⟩
    | none => findDup (ns ++ [d]) rest

/-- Modelled from the spec (section 4.2): `add_parsed_file` merges one
declarations of a SourceUnit into the Namespace.  It fails with a
`DuplicateDeclarationError` if a qualified name already exists, and on
failure the Namespace is left exactly as it was (atomic merge).  The pair
mirrors the Rust signature `&mut self -> Result<(), Error>`: the first
component is the returned Result, the second the namespace state after the
call. -/
def PreAST.add_parsed_file (self : PreAST) (_filename : String) (file : SourceUnit) :
    Except DuplicateDeclarationError Unit × PreAST :=
  match findDup self.decls file.declarations with
  | some e => (.error e, self)
  | none => (.ok (), ⟨self.decls ++ file.declarations⟩)

/-- Modelled from the spec (section 7): an unresolvable reference found by
the Resolver, carrying the referencing declaration and the unknown name. -/
structure UnknownReferenceError where
  referencing_declaration : String
  name : String
deriving Repr, DecidableEq

/-- Modelled from the spec (section 7): a cycle in the bundle-call graph
found by the Resolver, naming the full cycle. -/
structure CyclicDependencyError where
  cycle_path : List String
deriving Repr, DecidableEq

/-- Modelled from the spec (section 7): the structural error taxonomy of
the Resolver. -/
inductive StructuralError where
  | unknownReference : UnknownReferenceError → StructuralError
  | cyclicDependency : CyclicDependencyError → StructuralError
deriving Repr, DecidableEq

/-- True when some declaration of the list bears the given name. -/
def declaredIn (decls : List Declaration) (c : String) : Bool :=
  decls.any (fun e => e.name = c)

/-- Modelled from the spec (section 4.3): for each unresolved reference (a
call to a name not present in the Namespace) an `UnknownReferenceError` is
recorded; all of them are collected. -/
def unknownRefErrors (decls : List Declaration) : List StructuralError :=
  decls.flatMap fun d =>
    (d.callTargets.filter (fun c => !(declaredIn decls c))).map
      (fun c => .unknownReference ⟨d.name, c⟩)

/-- Modelled from the spec (section 4.3): the bundle-call graph over
successfully resolved edges only — the call targets of a declared bundle
that are themselves declared. -/
def resolvedAdj (decls : List Declaration) (n : String) : List String :=
  match lookupName decls n with
  | some d => d.callTargets.filter (fun c => declaredIn decls c)
  | none => []

/-- The cycle named by a back-edge from the current node to a node on the
recursion stack: the target node, the stack entries above it (in traversal
order), and the target node again closing the cycle. -/
def cyclePathOf (stack : List String) (n : String) : List String :=
  n :: ((stack.takeWhile (fun m => m != n)).reverse ++ [n])

/-- Modelled from the spec (section 4.3): depth-first traversal with a
recursion-stack marker.  A back-edge to a node currently on the stack
yields a `CyclicDependencyError` naming the full cycle; a node already
fully visited is skipped; otherwise all resolved edges are followed and
the node is marked visited.  `fuel` bounds the recursion depth; the
Resolver always supplies more fuel than the number of declarations, so the
bound is never hit. -/
def dfsNode (g : String → List String) :
    Nat → List String → List String → String → List StructuralError × List String
  | 0, _, v, _ => ([], v)
  | fuel + 1, stack, v, n =>
    if n ∈ stack then ([.cyclicDependency ⟨cyclePathOf stack n⟩], v)
    else if n ∈ v then ([], v)
    else
      let r := (g n).foldl
        (fun acc m =>
          let s := dfsNode g fuel (n :: stack) acc.2 m
          (acc.1 ++ s.1, s.2))
        (([] : List StructuralError), v)
      (r.1, n :: r.2)

/-- Sequential depth-first visits of a list of nodes from a common stack,
threading the visited set and concatenating the errors.  Unfolding of the
fold inside `dfsNode`. -/
def dfsKids (g : String → List String) (fuel : Nat) (stack : List String) :
    List String → List String → List StructuralError × List String
  | v, [] => ([], v)
  | v, m :: ms =>
    let r1 := dfsNode g fuel stack v m
    let r2 := dfsKids g fuel stack r1.2 ms
    (r1.1 ++ r2.1, r2.2)

/-- Modelled from the spec (section 4.3): cycle detection runs the
depth-first traversal from every declaration, collecting every
`CyclicDependencyError` found. -/
def cycleErrors (decls : List Declaration) : List StructuralError :=
  (dfsKids (resolvedAdj decls) (decls.length + 1) [] [] (decls.map (·.name))).1

/-- Modelled from the spec (section 4.3): all structural errors found in
the namespace — every unresolved reference and every cycle — collected
together (not fail-fast). -/
def structuralErrors (p : PreAST) : List StructuralError :=
  unknownRefErrors p.decls ++ cycleErrors p.decls

/-- Modelled from the spec (section 3): the fully resolved Program. -/
structure AST where
  decls : List Declaration
deriving Repr, DecidableEq

/-- Modelled from the spec (section 4.3): `build` consumes a Namespace and
returns a Program exactly when the collected structural error set is
empty; otherwise it returns the whole non-empty error set. -/
def AST.from_pre_ast (p : PreAST) : Except (List StructuralError) AST :=
  match structuralErrors p with
  | [] => .ok ⟨p.decls⟩
  | e :: es => .error (e :: es)

/-- Modelled from the spec (section 7): an arity mismatch between a bundle
call and the declared parameter list of the callee. -/
structure ArityError where
  bundle : String
  called : String
  required : Nat
  total : Nat
  given : Nat
deriving Repr, DecidableEq

/-- Modelled from the spec (section 7): semantic diagnostics produced by
the Analyzer.  The arity rule is modelled in full; it is the semantic rule
the testable properties of the design exercise. -/
inductive SemanticError where
  | arity : ArityError → SemanticError
deriving Repr, DecidableEq

/-- Number of parameters without a default value — the minimum number of
arguments a call must supply. -/
def requiredParams (ps : List Parameter) : Nat :=
  (ps.filter (fun p => !p.hasDefault)).length

/-- Modelled from the spec (section 4.4): check one statement of a bundle,
flagging a bundle call whose argument count is not between the number of
required parameters and the total number of declared parameters of the
callee. -/
def checkStatement (decls : List Declaration) (d : Declaration) (s : Statement) :
    List SemanticError :=
  match s with
  | .bundleCall t args =>
    match lookupName decls t with
    | some callee =>
      if requiredParams callee.params ≤ args.length ∧ args.length ≤ callee.params.length
      then []
      else [.arity ⟨d.name, t, requiredParams callee.params, callee.params.length, args.length⟩]
    | none => []
  | _ => []

/-- Modelled from the spec (section 4.4): the AnalysisReport — diagnostics
accumulated across the whole tree, with no short-circuit on first error. -/
def AST.analysisReport (a : AST) : List SemanticError :=
  a.decls.flatMap fun d => d.body.flatMap (checkStatement a.decls d)

/-- Modelled from the spec (sections 4.4 and 6): `analyze` walks every
bundle and statement and returns `()` on a clean report, or the whole
non-empty diagnostic set. -/
def AST.analyze (a : AST) : Except (List SemanticError) Unit :=
  match a.analysisReport with
  | [] => .ok ()
  | e :: es => .error (e :: es)

/-- State-passing form of `analyze`, mirroring the Rust receiver `&self`:
the first component is the returned Result, the second the Program state
after the call (a shared borrow cannot modify it). -/
def AST.analyzeSt (a : AST) : Except (List SemanticError) Unit × AST :=
  (a.analyze, a)

/-- Modelled from the spec (sections 4.5 and 7): generation failure for a
construct with no lowering in the target dialect. -/
structure GenerationError where
  construct : String
  bundle : String
deriving Repr, DecidableEq

/-- Modelled from the spec (section 3): one unit of emitted target-language
text per logical output unit, plus the own success status of the generator. -/
structure GeneratedArtifact where
  bundle : String
  text : String
  success : Bool
deriving Repr, DecidableEq

/-- Insert a name into a name-sorted list, keeping it sorted. -/
def insertByName (x : String) : List String → List String
  | [] => [x]
  | y :: ys => if x ≤ y then x :: y :: ys else y :: insertByName x ys

/-- Sort a list of names lexicographically (the deterministic tie-break
order of the generator). -/
def sortByName (l : List String) : List String :=
  l.foldr insertByName []

/-- Modelled from the spec (section 4.5): the call edges the generator
follows, with ties broken by declaration name. -/
def genAdj (decls : List Declaration) (n : String) : List String :=
  sortByName (resolvedAdj decls n)

/-- Modelled from the spec (section 4.5, opaque serialization): the
target-dialect text emitted for one statement. -/
def lowerStatement (s : Statement) : String :=
  match s with
  | .methodCall m args => "  call " ++ m ++ "(" ++ String.intercalate ", " args ++ ")"
  | .bundleCall t args => "  usebundle " ++ t ++ "(" ++ String.intercalate ", " args ++ ")"
  | .condition e => "  if " ++ e
  | .variableDef v val => "  var " ++ v ++ " = " ++ val

/-- The target-dialect text emitted for one bundle. -/
def renderBundle (decls : List Declaration) (n : String) : String :=
  match lookupName decls n with
  | some d =>
    "bundle " ++ n ++ "\n" ++ String.intercalate "\n" (d.body.map lowerStatement)
  | none => ""

/-- Modelled from the spec (section 4.5): post-order depth-first emission —
every callee of a bundle is emitted before the bundle itself, each bundle
at most once, callees taken in name order.  `em` is the list of bundle
names emitted so far, in emission order; `fuel` bounds the recursion depth
and is always supplied larger than the declaration count. -/
def emitNode (g : String → List String) : Nat → List String → String → List String
  | 0, em, _ => em
  | fuel + 1, em, n =>
    if n ∈ em then em
    else
      let em2 := (g n).foldl (fun acc m => emitNode g fuel acc m) em
      em2 ++ [n]

/-- Sequential post-order emission of a list of root bundles.  Unfolding of
the fold used by `generate_all` over its entry points. -/
def emitRoots (g : String → List String) (fuel : Nat) :
    List String → List String → List String
  | em, [] => em
  | em, n :: ns => emitRoots g fuel (emitNode g fuel em n) ns

/-- Modelled from the spec (section 4.5): the concrete backend state —
the artifacts produced so far by this engine. -/
structure CFEngine where
  artifacts : List GeneratedArtifact
deriving Repr, DecidableEq

/-- The backend starts with no artifacts. -/
def CFEngine.new : CFEngine := ⟨[]⟩

/-- The emission order of `generate_all` for a program: post-order
depth-first traversal of the call graph from every declared bundle
(every top-level bundle is a designated entry point), roots and callees
taken in name order, so callees are emitted before callers. -/
def emissionOrder (ast : AST) : List String :=
  emitRoots (genAdj ast.decls) (ast.decls.length + 1) []
    (sortByName (ast.decls.map (·.name)))

/-- Modelled from the spec (section 4.5) with the interface of the caller
in src/src/main.rs (`Ok(()) => {}`): `generate_all` takes the Program by
shared reference, appends one artifact per emitted bundle to the engine
state, and returns `Ok(())` to the caller.  The pair mirrors the Rust
signature `&mut self, &Program -> Result<(), Error>`: the first component
is the returned Result, the second the engine state after the call.  This
backend lowers every modelled construct, so it never fails. -/
def CFEngine.generate_all (self : CFEngine) (ast : AST) :
    Except GenerationError Unit × CFEngine :=
  (.ok (),
   ⟨self.artifacts ++ (emissionOrder ast).map
      (fun n => ⟨n, renderBundle ast.decls n, true⟩)⟩)

/-- State-passing form of `generate_all` that also threads the Program,
mirroring the Rust borrows `&mut self, &Program`: the Program component is
the program state after the call (a shared borrow cannot modify it). -/
def CFEngine.generateAllSt (self : CFEngine) (ast : AST) :
    (Except GenerationError Unit × CFEngine) × AST :=
  (self.generate_all ast, ast)

/-- Modelled from the spec (section 7): a syntax error of the parser. -/
structure SyntaxError where
  line : Nat
  col : Nat
  expected : String
  found : String
deriving Repr, DecidableEq

/-- The five pipeline stages of the driver, in the order main runs them. -/
inductive Stage where
  | parserStage
  | aggregatorStage
  | resolverStage
  | analyzerStage
  | generatorStage
deriving Repr, DecidableEq

/-- The full pipeline stage order of src/src/main.rs. -/
def allStages : List Stage :=
  [.parserStage, .aggregatorStage, .resolverStage, .analyzerStage, .generatorStage]

/-- The driver aborts (panics) with the error of the first failing stage;
this type records which stage failed. -/
inductive PipelineError where
  | duringParsing : SyntaxError → PipelineError
  | duringInsertion : DuplicateDeclarationError → PipelineError
  | duringStructure : List StructuralError → PipelineError
  | duringAnalysis : List SemanticError → PipelineError
  | duringGeneration : GenerationError → PipelineError
deriving Repr, DecidableEq

/-- Translated from src/src/main.rs (fn main): run the pipeline on one
file, stage after stage, aborting at the first failing stage.  The parser
implementation lives in a module not under src/, so it is a parameter; the
first component lists the stages that actually ran, in order, and the
second is the overall outcome. -/
def runPipeline (parse : String → String → Except SyntaxError SourceUnit)
    (filename content : String) : List Stage × Except PipelineError Unit :=
  match parse filename content with
  | .error e => ([.parserStage], .error (.duringParsing e))
  | .ok file =>
    match PreAST.new.add_parsed_file filename file with
    | (.error e, _) => ([.parserStage, .aggregatorStage], .error (.duringInsertion e))
    | (.ok _, pre) =>
      match AST.from_pre_ast pre with
      | .error es =>
        ([.parserStage, .aggregatorStage, .resolverStage], .error (.duringStructure es))
      | .ok ast =>
        match ast.analyze with
        | .error es =>
          ([.parserStage, .aggregatorStage, .resolverStage, .analyzerStage],
           .error (.duringAnalysis es))
        | .ok _ =>
          match CFEngine.new.generate_all ast with
          | (.error e, _) => (allStages, .error (.duringGeneration e))
          | (.ok _, _) => (allStages, .ok ())

/-- Nonempty walks in a call graph: `Walks g a b` holds when the graph `g`
has a path of one or more edges from `a` to `b`. -/
inductive Walks (g : String → List String) : String → String → Prop
  | single {a b : String} : b ∈ g a → Walks g a b
  | tail {a b c : String} : Walks g a b → c ∈ g b → Walks g a c

/-- A call graph is acyclic when no node has a nonempty walk back to
itself. -/
def Acyclic (g : String → List String) : Prop :=
  ∀ n, ¬ Walks g n n

/-- Resolved call targets of one declaration (targets that are declared). -/
def resolvedCalls (decls : List Declaration) (d : Declaration) : List String :=
  d.callTargets.filter (fun c => declaredIn decls c)

/-- One round of layer elimination: repeatedly move every pending
declaration all of whose resolved callees are already eliminated; succeeds
when everything is eliminated, fails when a nonempty pending set has no
eliminable declaration (which is exactly a cycle). -/
def acyclicbAux (decls : List Declaration) :
    Nat → List String → List Declaration → Bool
  | 0, _, pending => pending.isEmpty
  | fuel + 1, done, pending =>
    if pending.isEmpty then true
    else
      let ready := pending.filter (fun d => (resolvedCalls decls d).all (fun c => decide (c ∈ done)))
      if ready.isEmpty then false
      else
        acyclicbAux decls fuel (done ++ ready.map (·.name))
          (pending.filter (fun d => !(resolvedCalls decls d).all (fun c => decide (c ∈ done))))

/-- Executable acyclicity check of the resolved bundle-call graph, by
layer elimination. -/
def acyclicb (decls : List Declaration) : Bool :=
  acyclicbAux decls decls.length [] decls

/-- A nodup list contained in another list is no longer than it. -/
theorem nodup_subset_length {l l2 : List String} (hn : l.Nodup) (hs : l ⊆ l2) :
    l.length ≤ l2.length := by
  calc l.length = l.toFinset.card := (List.toFinset_card_of_nodup hn).symm
    _ ≤ l2.toFinset.card := Finset.card_le_card (fun x hx => by
        simp only [List.mem_toFinset] at hx ⊢; exact hs hx)
    _ ≤ l2.length := l2.toFinset_card_le

/-- Membership in an insertion step of the name sort. -/
theorem mem_insertByName {x y : String} {l : List String} :
    y ∈ insertByName x l ↔ y = x ∨ y ∈ l := by
  induction l with
  | nil => simp [insertByName]
  | cons z zs ih =>
    by_cases h : x ≤ z
    · simp [insertByName, h]
    · simp only [insertByName, if_neg h, List.mem_cons, ih]
      tauto

/-- The name sort preserves membership. -/
theorem mem_sortByName {y : String} {l : List String} :
    y ∈ sortByName l ↔ y ∈ l := by
  induction l with
  | nil => simp [sortByName]
  | cons z zs ih =>
    simp only [sortByName, List.foldr_cons] at ih ⊢
    rw [mem_insertByName, ih, List.mem_cons]

/-- A successful lookup returns a declaration of the list bearing the
looked-up name. -/
theorem lookupName_some {decls : List Declaration} {n : String} {d : Declaration}
    (h : lookupName decls n = some d) : d ∈ decls ∧ d.name = n := by
  have hm := List.mem_of_find?_eq_some h
  have hp := List.find?_some h
  simp only [decide_eq_true_eq] at hp
  exact ⟨hm, hp⟩

/-- A lookup fails exactly when no declaration bears the name. -/
theorem lookupName_none {decls : List Declaration} {n : String} :
    lookupName decls n = none ↔ ∀ d ∈ decls, d.name ≠ n := by
  constructor
  · intro h d hd
    have := List.find?_eq_none.1 h d hd
    simpa using this
  · intro h
    exact List.find?_eq_none.2 (fun d hd => by simpa using h d hd)

/-- In a list with nodup names, looking up the name of a member finds that
member. -/
theorem lookupName_self {decls : List Declaration} {d : Declaration}
    (hn : (decls.map (·.name)).Nodup) (hd : d ∈ decls) :
    lookupName decls d.name = some d := by
  induction decls with
  | nil => cases hd
  | cons e es ih =>
    simp only [List.map_cons, List.nodup_cons] at hn
    rcases List.mem_cons.1 hd with rfl | hd2
    · simp [lookupName, List.find?]
    · have hne : e.name ≠ d.name := by
        intro hcontra
        exact hn.1 (hcontra ▸ List.mem_map_of_mem (·.name) hd2)
      have hrec := ih hn.2 hd2
      simp only [lookupName, List.find?, decide_eq_false hne]
      exact hrec

/-- `declaredIn` is membership of the name list. -/
theorem declaredIn_iff {decls : List Declaration} {c : String} :
    declaredIn decls c = true ↔ c ∈ decls.map (·.name) := by
  simp only [declaredIn, List.any_eq_true, decide_eq_true_eq, List.mem_map]

/-- Resolved adjacency only mentions declared names. -/
theorem resolvedAdj_subset {decls : List Declaration} {n : String} :
    resolvedAdj decls n ⊆ decls.map (·.name) := by
  intro x hx
  unfold resolvedAdj at hx
  cases h : lookupName decls n with
  | none => rw [h] at hx; cases hx
  | some d =>
    rw [h] at hx
    have := List.of_mem_filter hx
    exact declaredIn_iff.1 this

/-- A node with an outgoing resolved edge is itself declared. -/
theorem resolvedAdj_source_declared {decls : List Declaration} {n x : String}
    (hx : x ∈ resolvedAdj decls n) : n ∈ decls.map (·.name) := by
  unfold resolvedAdj at hx
  cases h : lookupName decls n with
  | none => rw [h] at hx; cases hx
  | some d =>
    have ⟨hd, hname⟩ := lookupName_some h
    exact hname ▸ List.mem_map_of_mem (·.name) hd

/-- The fold inside `dfsNode` is `dfsKids` with the accumulated errors
prepended. -/
theorem dfsKids_eq_foldl (g : String → List String) (fuel : Nat) (stack : List String) :
    ∀ (l : List String) (e : List StructuralError) (v : List String),
      l.foldl (fun acc m => let s := dfsNode g fuel stack acc.2 m; (acc.1 ++ s.1, s.2)) (e, v)
        = (e ++ (dfsKids g fuel stack v l).1, (dfsKids g fuel stack v l).2) := by
  intro l
  induction l with
  | nil => intro e v; simp [dfsKids]
  | cons m ms ih =>
    intro e v
    simp only [List.foldl_cons, dfsKids]
    rw [ih]
    simp [List.append_assoc]

/-- Unfolding of a depth-first visit with positive fuel, phrased through
`dfsKids`. -/
theorem dfsNode_succ (g : String → List String) (f : Nat) (st v : List String) (n : String) :
    dfsNode g (f + 1) st v n =
      if n ∈ st then ([.cyclicDependency ⟨cyclePathOf st n⟩], v)
      else if n ∈ v then ([], v)
      else ((dfsKids g f (n :: st) v (g n)).1, n :: (dfsKids g f (n :: st) v (g n)).2) := by
  simp only [dfsNode]
  split_ifs with h1 h2
  · rfl
  · rfl
  · rw [dfsKids_eq_foldl]
    simp

/-- The visited set of a sequence of visits extends the input visited set,
given that each single visit does. -/
theorem dfsKids_visited_of_node {g : String → List String} {f : Nat} {st : List String}
    (hnode : ∀ v n, ∃ d, (dfsNode g f st v n).2 = d ++ v) :
    ∀ l v, ∃ d, (dfsKids g f st v l).2 = d ++ v := by
  intro l
  induction l with
  | nil => intro v; exact ⟨[], rfl⟩
  | cons m ms ih =>
    intro v
    obtain ⟨d1, h1⟩ := hnode v m
    obtain ⟨d2, h2⟩ := ih (dfsNode g f st v m).2
    refine ⟨d2 ++ d1, ?_⟩
    simp only [dfsKids]
    rw [h2, h1, List.append_assoc]

/-- The visited set of a depth-first visit extends the input visited set. -/
theorem dfsNode_visited (g : String → List String) :
    ∀ f st v n, ∃ d, (dfsNode g f st v n).2 = d ++ v := by
  intro f
  induction f with
  | zero => intro st v n; exact ⟨[], rfl⟩
  | succ f ih =>
    intro st v n
    rw [dfsNode_succ]
    split_ifs with h1 h2
    · exact ⟨[], rfl⟩
    · exact ⟨[], rfl⟩
    · obtain ⟨d, hd⟩ := dfsKids_visited_of_node (fun v2 m => ih (n :: st) v2 m) (g n) v
      exact ⟨n :: d, by simp [hd]⟩

/-- The visited set of a sequence of visits extends the input visited set. -/
theorem dfsKids_visited (g : String → List String) (f : Nat) (st : List String) :
    ∀ l v, ∃ d, (dfsKids g f st v l).2 = d ++ v :=
  dfsKids_visited_of_node (fun v n => dfsNode_visited g f st v n)

/-- Monotonicity of the visited set under one visit. -/
theorem dfsNode_visited_sub {g : String → List String} {f : Nat} {st v : List String}
    {n : String} : v ⊆ (dfsNode g f st v n).2 := by
  obtain ⟨d, hd⟩ := dfsNode_visited g f st v n
  rw [hd]
  exact List.subset_append_right d v

/-- Monotonicity of the visited set under a sequence of visits. -/
theorem dfsKids_visited_sub {g : String → List String} {f : Nat} {st v : List String}
    {l : List String} : v ⊆ (dfsKids g f st v l).2 := by
  obtain ⟨d, hd⟩ := dfsKids_visited g f st l v
  rw [hd]
  exact List.subset_append_right d v

/-- With positive fuel, a visit of a node not on the stack puts it into the
visited set. -/
theorem dfsNode_self_visited {g : String → List String} {f : Nat} {st v : List String}
    {n : String} (hf : 1 ≤ f) (hn : n ∉ st) : n ∈ (dfsNode g f st v n).2 := by
  obtain ⟨f, rfl⟩ := Nat.exists_eq_add_of_le hf
  rw [Nat.add_comm, dfsNode_succ]
  rw [if_neg hn]
  by_cases h2 : n ∈ v
  · rw [if_pos h2]; exact h2
  · rw [if_neg h2]; exact List.mem_cons_self n _

/-- With positive fuel, every root of a sequence of visits from the empty
stack ends up visited. -/
theorem dfsKids_all_visited {g : String → List String} {f : Nat} (hf : 1 ≤ f) :
    ∀ l v n, n ∈ l → n ∈ (dfsKids g f [] v l).2 := by
  intro l
  induction l with
  | nil => intro v n h; cases h
  | cons m ms ih =>
    intro v n h
    rcases List.mem_cons.1 h with rfl | h2
    · have h1 : n ∈ (dfsNode g f [] v n).2 := dfsNode_self_visited hf (List.not_mem_nil n)
      simp only [dfsKids]
      exact dfsKids_visited_sub h1
    · simp only [dfsKids]
      exact ih _ n h2

/-- Invariant of the recursion stack: consecutive stack entries are joined
by call edges (each entry was pushed while exploring the entry below it),
and the node currently visited is a call target of the stack top. -/
def stackChain (g : String → List String) (st : List String) (n : String) : Prop :=
  st.Chain' (fun a b => a ∈ g b) ∧ (∀ h t, st = h :: t → n ∈ g h)

/-- Walking down a chained stack from any member reaches the top. -/
theorem walkTo {g : String → List String} :
    ∀ (l : List String), l.Chain' (fun a b => a ∈ g b) →
      ∀ x ∈ l, ∀ h, l.head? = some h → x = h ∨ Walks g x h := by
  intro l
  induction l with
  | nil => intro _ x hx; cases hx
  | cons a l2 ih =>
    intro hch x hx h hh
    have ha : h = a := by simpa using hh.symm
    subst ha
    rcases List.mem_cons.1 hx with rfl | hx2
    · exact Or.inl rfl
    · cases l2 with
      | nil => cases hx2
      | cons b l3 =>
        rw [List.chain'_cons] at hch
        rcases ih hch.2 x hx2 b rfl with rfl | hw
        · exact Or.inr (Walks.single hch.1)
        · exact Or.inr (Walks.tail hw hch.1)

/-- A visit of a node already on a chained stack witnesses a cycle. -/
theorem walks_of_stackChain {g : String → List String} {st : List String} {n : String}
    (hc : stackChain g st n) (hn : n ∈ st) : Walks g n n := by
  cases st with
  | nil => cases hn
  | cons h t =>
    have hback : n ∈ g h := hc.2 h t rfl
    rcases walkTo (h :: t) hc.1 n hn h rfl with rfl | hw
    · exact Walks.single hback
    · exact Walks.tail hw hback

/-- A sequence of visits produces no errors when no single visit does. -/
theorem dfsKids_errors_nil {g : String → List String} {f : Nat} {st : List String}
    {l : List String} (hnode : ∀ m ∈ l, ∀ v, (dfsNode g f st v m).1 = []) :
    ∀ v, (dfsKids g f st v l).1 = [] := by
  induction l with
  | nil => intro v; rfl
  | cons m ms ih =>
    intro v
    simp only [dfsKids]
    rw [hnode m (List.mem_cons_self m ms) v,
      ih (fun m2 hm2 v2 => hnode m2 (List.mem_cons_of_mem m hm2) v2) _]
    rfl

/-- Soundness of the depth-first cycle detection: on an acyclic graph a
visit with a chained stack reports no error. -/
theorem dfsNode_sound {g : String → List String} (hac : Acyclic g) :
    ∀ f st v n, stackChain g st n → (dfsNode g f st v n).1 = [] := by
  intro f
  induction f with
  | zero => intro st v n _; rfl
  | succ f ih =>
    intro st v n hchain
    rw [dfsNode_succ]
    by_cases h1 : n ∈ st
    · exact absurd (walks_of_stackChain hchain h1) (hac n)
    · rw [if_neg h1]
      by_cases h2 : n ∈ v
      · rw [if_pos h2]
      · rw [if_neg h2]
        have hkids : ∀ m ∈ g n, ∀ v2, (dfsNode g f (n :: st) v2 m).1 = [] := by
          intro m hm v2
          apply ih (n :: st) v2 m
          refine ⟨?_, ?_⟩
          · rw [List.chain'_cons']
            refine ⟨?_, hchain.1⟩
            intro b hb
            cases st with
            | nil => simp at hb
            | cons c t =>
              simp only [List.head?_cons, Option.mem_def, Option.some.injEq] at hb
              subst hb
              exact hchain.2 _ t rfl
          · intro h t ht
            injection ht with h1 _
            subst h1
            exact hm
        exact dfsKids_errors_nil hkids v

/-- On an acyclic resolved call graph the cycle detection pass reports no
error. -/
theorem cycleErrors_nil {decls : List Declaration}
    (hac : Acyclic (resolvedAdj decls)) : cycleErrors decls = [] := by
  unfold cycleErrors
  exact dfsKids_errors_nil
    (fun n _ v => dfsNode_sound hac _ [] v n
      ⟨List.chain'_nil, fun h t ht => by cases ht⟩) []

/-- A list of nodes is topologically ordered for a graph when every edge of
a member points into the part strictly before it. -/
def TopoOrdered (g : String → List String) (done : List String) : Prop :=
  ∀ l1 a l2, done = l1 ++ a :: l2 → ∀ c ∈ g a, c ∈ l1

/-- In a topologically ordered list, the endpoint of a walk lies strictly
before the start. -/
theorem walks_precede {g : String → List String} {done : List String}
    (hP : TopoOrdered g done) :
    ∀ a b, Walks g a b → a ∈ done → ∃ l1 l2, done = l1 ++ a :: l2 ∧ b ∈ l1 := by
  intro a b hw
  induction hw with
  | @single b1 hedge =>
    intro ha
    obtain ⟨l1, l2, h⟩ := List.append_of_mem ha
    exact ⟨l1, l2, h, hP l1 _ l2 h _ hedge⟩
  | @tail b1 c1 w hedge ih =>
    intro ha
    obtain ⟨l1, l2, hsplit, hb⟩ := ih ha
    obtain ⟨m1, m2, hbsplit⟩ := List.append_of_mem hb
    have hdone2 : done = m1 ++ b1 :: (m2 ++ a :: l2) := by
      rw [hsplit, hbsplit]; simp
    have hc := hP m1 b1 _ hdone2 c1 hedge
    refine ⟨l1, l2, hsplit, ?_⟩
    rw [hbsplit]
    exact List.mem_append_left _ hc

/-- A nodup topologically ordered list contains no member with a cycle. -/
theorem no_cycle_of_topo {g : String → List String} {done : List String}
    (hP : TopoOrdered g done) (hnd : done.Nodup) :
    ∀ a ∈ done, ¬ Walks g a a := by
  intro a ha hw
  obtain ⟨l1, l2, hsplit, hb⟩ := walks_precede hP a a hw ha
  rw [hsplit] at hnd
  exact (List.disjoint_of_nodup_append hnd) hb (List.mem_cons_self a l2)

/-- The start of a walk has an outgoing edge. -/
theorem walks_out_edge {g : String → List String} {a b : String}
    (hw : Walks g a b) : ∃ x, x ∈ g a := by
  induction hw with
  | single h => exact ⟨_, h⟩
  | tail _ _ ih => exact ih

/-- Soundness of the layer-elimination loop: when it succeeds, the
eliminated list extends to a nodup topologically ordered list covering
every declaration. -/
theorem acyclicbAux_sound {decls : List Declaration}
    (hnd : (decls.map (·.name)).Nodup) :
    ∀ (f : Nat) (done : List String) (pending : List Declaration),
      TopoOrdered (resolvedAdj decls) done → done.Nodup →
      (∀ d ∈ decls, d.name ∈ done ∨ d ∈ pending) →
      (∀ d ∈ pending, d ∈ decls ∧ d.name ∉ done) →
      (pending.map (·.name)).Nodup →
      acyclicbAux decls f done pending = true →
      ∃ doneF, TopoOrdered (resolvedAdj decls) doneF ∧ doneF.Nodup ∧
        ∀ d ∈ decls, d.name ∈ doneF := by
  intro f
  induction f with
  | zero =>
    intro done pending h1 h2 h3 _ _ ht
    simp only [acyclicbAux, List.isEmpty_iff] at ht
    subst ht
    refine ⟨done, h1, h2, fun d hd => ?_⟩
    rcases h3 d hd with h | h
    · exact h
    · cases h
  | succ f ih =>
    intro done pending h1 h2 h3 h4 h5 ht
    simp only [acyclicbAux] at ht
    by_cases hemp : pending.isEmpty
    · rw [if_pos hemp] at ht
      rw [List.isEmpty_iff] at hemp
      subst hemp
      refine ⟨done, h1, h2, fun d hd => ?_⟩
      rcases h3 d hd with h | h
      · exact h
      · cases h
    · rw [if_neg hemp] at ht
      by_cases hre : (pending.filter
          (fun d => (resolvedCalls decls d).all (fun c => decide (c ∈ done)))).isEmpty
      · rw [if_pos hre] at ht
        cases ht
      · rw [if_neg hre] at ht
        set q : Declaration → Bool :=
          fun d => (resolvedCalls decls d).all (fun c => decide (c ∈ done)) with hq
        set ready := pending.filter q with hready
        -- a member of ready is a pending declaration whose resolved calls are done
        have hreadyMem : ∀ r ∈ ready, r ∈ pending ∧ ∀ c ∈ resolvedCalls decls r, c ∈ done := by
          intro r hr
          have := List.mem_filter.1 hr
          refine ⟨this.1, fun c hc => ?_⟩
          have hall := List.all_eq_true.1 this.2 c hc
          exact of_decide_eq_true hall
        -- the resolved adjacency of a declaration is its resolved calls
        have hadjEq : ∀ d ∈ decls, resolvedAdj decls d.name = resolvedCalls decls d := by
          intro d hd
          unfold resolvedAdj
          rw [lookupName_self hnd hd]
          rfl
        have hreadyAdj : ∀ a ∈ ready.map (·.name), ∀ c ∈ resolvedAdj decls a, c ∈ done := by
          intro a ha c hc
          obtain ⟨r, hr, rfl⟩ := List.mem_map.1 ha
          have hrd := (h4 r (hreadyMem r hr).1).1
          rw [hadjEq r hrd] at hc
          exact (hreadyMem r hr).2 c hc
        apply ih (done ++ ready.map (·.name)) (pending.filter (fun d => !q d))
        -- topological order is preserved by appending a layer of ready names
        · intro l1 a l2 hsplit c hc
          rcases List.append_eq_append_iff.1 hsplit with ⟨a2, hl1, hX⟩ | ⟨c2, hdone, hX⟩
          · have haX : a ∈ ready.map (·.name) := by
              rw [hX]; exact List.mem_append_right a2 (List.mem_cons_self a l2)
            have : c ∈ done := hreadyAdj a haX c hc
            rw [hl1]
            exact List.mem_append_left a2 this
          · cases c2 with
            | nil =>
              simp only [List.nil_append] at hX
              have haX : a ∈ ready.map (·.name) := by
                rw [← hX]; exact List.mem_cons_self a l2
              have : c ∈ done := hreadyAdj a haX c hc
              rw [hdone] at this
              simpa using this
            | cons e c3 =>
              injection hX with he hrest
              subst he
              exact h1 l1 a c3 hdone c hc
        -- nodup is preserved
        · rw [List.nodup_append]
          refine ⟨h2, ?_, ?_⟩
          · exact List.Nodup.sublist (List.Sublist.map _ (List.filter_sublist pending)) h5
          · intro x hx hx2
            obtain ⟨r, hr, rfl⟩ := List.mem_map.1 hx2
            exact (h4 r (hreadyMem r hr).1).2 hx
        -- coverage is preserved
        · intro d hd
          rcases h3 d hd with h | h
          · exact Or.inl (List.mem_append_left _ h)
          · by_cases hqd : q d
            · exact Or.inl (List.mem_append_right _
                (List.mem_map_of_mem (·.name) (List.mem_filter.2 ⟨h, hqd⟩)))
            · exact Or.inr (List.mem_filter.2 ⟨h, by simpa using hqd⟩)
        -- pending members stay outside done
        · intro d hd
          have hdp := List.mem_filter.1 hd
          refine ⟨(h4 d hdp.1).1, ?_⟩
          intro hmem
          rcases List.mem_append.1 hmem with h | h
          · exact (h4 d hdp.1).2 h
          · obtain ⟨r, hr, hrn⟩ := List.mem_map.1 h
            have hrd : r = d := List.inj_on_of_nodup_map h5 (hreadyMem r hr).1 hdp.1 hrn
            subst hrd
            have hqt : q r = true := (List.mem_filter.1 hr).2
            have hqf : (!q r) = true := hdp.2
            rw [hqt] at hqf
            simp at hqf
        -- pending names stay nodup
        · exact List.Nodup.sublist (List.Sublist.map _ (List.filter_sublist pending)) h5
        · exact ht

/-- Soundness of the executable acyclicity check: when it returns true,
the resolved call graph is acyclic. -/
theorem acyclicb_sound {decls : List Declaration}
    (hnd : (decls.map (·.name)).Nodup) (hb : acyclicb decls = true) :
    Acyclic (resolvedAdj decls) := by
  obtain ⟨doneF, hP, hnd2, hall⟩ :=
    acyclicbAux_sound hnd decls.length [] decls
      (fun l1 a l2 h => by simp at h)
      List.nodup_nil
      (fun d hd => Or.inr hd)
      (fun d hd => ⟨hd, List.not_mem_nil _⟩)
      hnd hb
  intro n hw
  obtain ⟨x, hx⟩ := walks_out_edge hw
  have hn : n ∈ decls.map (·.name) := resolvedAdj_source_declared hx
  obtain ⟨d, hd, rfl⟩ := List.mem_map.1 hn
  exact no_cycle_of_topo hP hnd2 _ (hall d hd) hw

/-- Some member of the error list is a cyclic-dependency error whose cycle
path names both given bundles. -/
def namesCycle (A B : String) (errs : List StructuralError) : Prop :=
  ∃ p, StructuralError.cyclicDependency ⟨p⟩ ∈ errs ∧ A ∈ p ∧ B ∈ p

/-- The back-edge target belongs to the cycle it names. -/
theorem self_mem_cyclePathOf {st : List String} {n : String} :
    n ∈ cyclePathOf st n := List.mem_cons_self n _

/-- The stack top belongs to the cycle named by a back-edge below it. -/
theorem head_mem_cyclePathOf {h : String} {st : List String} {n : String}
    (hne : h ≠ n) : h ∈ cyclePathOf (h :: st) n := by
  unfold cyclePathOf
  refine List.mem_cons_of_mem _ (List.mem_append_left _ ?_)
  rw [List.mem_reverse]
  have hp : (h != n) = true := bne_iff_ne.2 hne
  rw [List.takeWhile_cons, if_pos hp]
  exact List.mem_cons_self _ _

/-- When a listed child is already on the recursion stack, the sequence of
visits reports the corresponding cycle error. -/
theorem dfsKids_hit (g : String → List String) (f : Nat) (st : List String)
    (hf : 1 ≤ f) (x : String) (hxst : x ∈ st) :
    ∀ l v, x ∈ l →
      StructuralError.cyclicDependency ⟨cyclePathOf st x⟩ ∈ (dfsKids g f st v l).1 := by
  intro l
  induction l with
  | nil => intro v h; cases h
  | cons m ms ih =>
    intro v h
    simp only [dfsKids]
    rcases List.mem_cons.1 h with rfl | h2
    · have hnode : dfsNode g f st v x = ([.cyclicDependency ⟨cyclePathOf st x⟩], v) := by
        obtain ⟨f2, rfl⟩ := Nat.exists_eq_add_of_le hf
        rw [Nat.add_comm 1 f2, dfsNode_succ, if_pos hxst]
      rw [hnode]
      exact List.mem_append_left _ (List.mem_cons_self _ _)
    · exact List.mem_append_right _ (ih _ h2)

/-- If every single visit carries a property from the visited set it grows,
so does a sequence of visits (locating the visit at which a predicate on
the visited set turns true). -/
theorem dfsKids_transition {g : String → List String} {f : Nat} {st : List String}
    (N : List String) (P : List String → Prop) {E : StructuralError → Prop}
    (hnode : ∀ v n, n ∈ N → ¬ P v → P (dfsNode g f st v n).2 →
      ∃ e ∈ (dfsNode g f st v n).1, E e) :
    ∀ l v, l ⊆ N → ¬ P v → P (dfsKids g f st v l).2 →
      ∃ e ∈ (dfsKids g f st v l).1, E e := by
  intro l
  induction l with
  | nil => intro v _ hnp hp; exact absurd hp hnp
  | cons m ms ih =>
    intro v hsub hnp hp
    simp only [dfsKids] at hp ⊢
    by_cases hm : P (dfsNode g f st v m).2
    · obtain ⟨e, he, hE⟩ := hnode v m (hsub (List.mem_cons_self m ms)) hnp hm
      exact ⟨e, List.mem_append_left _ he, hE⟩
    · obtain ⟨e, he, hE⟩ := ih _ (fun x hx => hsub (List.mem_cons_of_mem m hx)) hm hp
      exact ⟨e, List.mem_append_right _ he, hE⟩

/-- Tracking lemma: when a node `t` with an edge back to a stacked node `s`
becomes visited during a visit, a cycle error naming both `s` and `t` is
reported. -/
theorem dfsNode_stack_cycle {g : String → List String} {N : List String}
    (hg : ∀ x, g x ⊆ N) {s t : String} (hedge : s ∈ g t) (hst : s ≠ t) :
    ∀ f st v m, st.Nodup → st ⊆ N → m ∈ N → N.length + 1 ≤ f + st.length →
      s ∈ st → t ∉ v → t ∈ (dfsNode g f st v m).2 →
      ∃ e ∈ (dfsNode g f st v m).1, ∃ p,
        e = .cyclicDependency ⟨p⟩ ∧ s ∈ p ∧ t ∈ p := by
  intro f
  induction f with
  | zero => intro st v m _ _ _ _ _ htv ht; exact absurd ht htv
  | succ f ih =>
    intro st v m hnd hstN hmN hfuel hs htv ht
    rw [dfsNode_succ] at ht ⊢
    by_cases h1 : m ∈ st
    · rw [if_pos h1] at ht; exact absurd ht htv
    · rw [if_neg h1] at ht ⊢
      by_cases h2 : m ∈ v
      · rw [if_pos h2] at ht; exact absurd ht htv
      · rw [if_neg h2] at ht ⊢
        by_cases hmt : m = t
        · subst hmt
          have hnd2 : (m :: st).Nodup := List.nodup_cons.2 ⟨h1, hnd⟩
          have hsub2 : (m :: st) ⊆ N := fun x hx => by
            rcases List.mem_cons.1 hx with rfl | hx2
            · exact hmN
            · exact hstN hx2
          have hlen := nodup_subset_length hnd2 hsub2
          have hf1 : 1 ≤ f := by
            simp only [List.length_cons] at hlen
            omega
          have hhit := dfsKids_hit g f (m :: st) hf1
            s (List.mem_cons_of_mem m hs) (g m) v hedge
          exact ⟨_, hhit, cyclePathOf (m :: st) s, rfl, self_mem_cyclePathOf,
            head_mem_cyclePathOf (fun h => hst h.symm)⟩
        · have htk : t ∈ (dfsKids g f (m :: st) v (g m)).2 := by
            rcases List.mem_cons.1 ht with h | h
            · exact absurd h.symm hmt
            · exact h
          have hnode : ∀ v2 n, n ∈ N → ¬ (t ∈ v2) → t ∈ (dfsNode g f (m :: st) v2 n).2 →
              ∃ e ∈ (dfsNode g f (m :: st) v2 n).1, ∃ p,
                e = StructuralError.cyclicDependency ⟨p⟩ ∧ s ∈ p ∧ t ∈ p := by
            intro v2 n hn htv2 htn
            refine ih (m :: st) v2 n (List.nodup_cons.2 ⟨h1, hnd⟩) ?_ hn ?_
              (List.mem_cons_of_mem m hs) htv2 htn
            · intro x hx
              rcases List.mem_cons.1 hx with rfl | hx2
              · exact hmN
              · exact hstN hx2
            · simp only [List.length_cons]
              omega
          exact dfsKids_transition N (fun v2 => t ∈ v2) hnode (g m) v
            (hg m) htv htk

/-- When a sequence of visits from a stack containing `s` explores a listed
node `t` that calls `s` back, a cycle error naming both is reported. -/
theorem dfsKids_explore_target {g : String → List String} {N : List String}
    (hg : ∀ x, g x ⊆ N) {s t : String} (hedge : s ∈ g t) (hst : s ≠ t)
    {f : Nat} {st2 : List String}
    (hs : s ∈ st2) (ht2 : t ∉ st2) (hnd : st2.Nodup) (hstN : st2 ⊆ N)
    (hfuel : N.length + 1 ≤ f + st2.length) :
    ∀ l v, l ⊆ N → t ∈ l → t ∉ v →
      ∃ e ∈ (dfsKids g f st2 v l).1, ∃ p,
        e = .cyclicDependency ⟨p⟩ ∧ s ∈ p ∧ t ∈ p := by
  intro l
  induction l with
  | nil => intro v _ h; cases h
  | cons m ms ih =>
    intro v hsub ht htv
    simp only [dfsKids]
    rcases List.mem_cons.1 ht with rfl | hts
    · have hnd2 : (t :: st2).Nodup := List.nodup_cons.2 ⟨ht2, hnd⟩
      have hsub2 : (t :: st2) ⊆ N := fun x hx => by
        rcases List.mem_cons.1 hx with hxt | hx2
        · rw [hxt]; exact hsub (List.mem_cons_self t ms)
        · exact hstN hx2
      have hlen := nodup_subset_length hnd2 hsub2
      have hf1 : 1 ≤ f := by
        simp only [List.length_cons] at hlen
        omega
      obtain ⟨f2, rfl⟩ := Nat.exists_eq_add_of_le hf1
      rw [Nat.add_comm 1 f2, dfsNode_succ, if_neg ht2, if_neg htv]
      have hf2 : 1 ≤ f2 := by
        simp only [List.length_cons] at hlen
        omega
      have hhit := dfsKids_hit g f2 (t :: st2) hf2
        s (List.mem_cons_of_mem t hs) (g t) v hedge
      refine ⟨_, List.mem_append_left _ hhit, cyclePathOf (t :: st2) s, rfl,
        self_mem_cyclePathOf, head_mem_cyclePathOf (fun h => hst h.symm)⟩
    · by_cases hP : t ∈ (dfsNode g f st2 v m).2
      · obtain ⟨e, he, hp⟩ := dfsNode_stack_cycle hg hedge hst f st2 v m hnd hstN
          (hsub (List.mem_cons_self m ms)) hfuel hs htv hP
        exact ⟨e, List.mem_append_left _ he, hp⟩
      · obtain ⟨e, he, hp⟩ := ih _ (fun x hx => hsub (List.mem_cons_of_mem m hx)) hts hP
        exact ⟨e, List.mem_append_right _ he, hp⟩

/-- Pair tracking lemma: when either node of a mutually calling pair first
becomes visited during a visit, a cycle error naming both is reported. -/
theorem dfsNode_pair_cycle {g : String → List String} {N : List String}
    (hg : ∀ x, g x ⊆ N) {A B : String} (hedgeAB : B ∈ g A)
    (hedgeBA : A ∈ g B) (hAB : A ≠ B) :
    ∀ f st v m, st.Nodup → st ⊆ N → m ∈ N → N.length + 1 ≤ f + st.length →
      A ∉ st → B ∉ st → A ∉ v → B ∉ v →
      (A ∈ (dfsNode g f st v m).2 ∨ B ∈ (dfsNode g f st v m).2) →
      ∃ e ∈ (dfsNode g f st v m).1, ∃ p,
        e = .cyclicDependency ⟨p⟩ ∧ A ∈ p ∧ B ∈ p := by
  intro f
  induction f with
  | zero =>
    intro st v m _ _ _ _ _ _ hAv hBv hch
    rcases hch with h | h
    · exact absurd h hAv
    · exact absurd h hBv
  | succ f ih =>
    intro st v m hnd hstN hmN hfuel hAst hBst hAv hBv hch
    rw [dfsNode_succ] at hch ⊢
    by_cases h1 : m ∈ st
    · rw [if_pos h1] at hch
      rcases hch with h | h
      · exact absurd h hAv
      · exact absurd h hBv
    · rw [if_neg h1] at hch ⊢
      by_cases h2 : m ∈ v
      · rw [if_pos h2] at hch
        rcases hch with h | h
        · exact absurd h hAv
        · exact absurd h hBv
      · rw [if_neg h2] at hch ⊢
        have hnd2 : (m :: st).Nodup := List.nodup_cons.2 ⟨h1, hnd⟩
        have hsub2 : (m :: st) ⊆ N := fun x hx => by
          rcases List.mem_cons.1 hx with hxm | hx2
          · rw [hxm]; exact hmN
          · exact hstN hx2
        have hfuel2 : N.length + 1 ≤ f + (m :: st).length := by
          simp only [List.length_cons]
          omega
        by_cases hmA : m = A
        · subst hmA
          exact dfsKids_explore_target hg hedgeBA hAB
            (List.mem_cons_self m st) (fun h => by
              rcases List.mem_cons.1 h with hc | hc
              · exact hAB hc.symm
              · exact hBst hc)
            hnd2 hsub2 hfuel2 (g m) v (hg m) hedgeAB hBv
        · by_cases hmB : m = B
          · subst hmB
            obtain ⟨e, he, p, hp, hsp, htp⟩ := dfsKids_explore_target hg hedgeAB
              (fun h => hAB h.symm)
              (List.mem_cons_self m st) (fun h => by
                rcases List.mem_cons.1 h with hc | hc
                · exact hAB hc
                · exact hAst hc)
              hnd2 hsub2 hfuel2 (g m) v (hg m) hedgeBA hAv
            exact ⟨e, he, p, hp, htp, hsp⟩
          · have hch2 : A ∈ (dfsKids g f (m :: st) v (g m)).2 ∨
                B ∈ (dfsKids g f (m :: st) v (g m)).2 := by
              rcases hch with h | h
              · rcases List.mem_cons.1 h with hc | hc
                · exact absurd hc.symm hmA
                · exact Or.inl hc
              · rcases List.mem_cons.1 h with hc | hc
                · exact absurd hc.symm hmB
                · exact Or.inr hc
            have hnode : ∀ v2 n, n ∈ N → ¬ (A ∈ v2 ∨ B ∈ v2) →
                (A ∈ (dfsNode g f (m :: st) v2 n).2 ∨ B ∈ (dfsNode g f (m :: st) v2 n).2) →
                ∃ e ∈ (dfsNode g f (m :: st) v2 n).1, ∃ p,
                  e = StructuralError.cyclicDependency ⟨p⟩ ∧ A ∈ p ∧ B ∈ p := by
              intro v2 n hn hnP hP
              exact ih (m :: st) v2 n hnd2 hsub2 hn hfuel2
                (fun h => by
                  rcases List.mem_cons.1 h with hc | hc
                  · exact hmA hc.symm
                  · exact hAst hc)
                (fun h => by
                  rcases List.mem_cons.1 h with hc | hc
                  · exact hmB hc.symm
                  · exact hBst hc)
                (fun h => hnP (Or.inl h)) (fun h => hnP (Or.inr h)) hP
            exact dfsKids_transition N
              (fun v2 => A ∈ v2 ∨ B ∈ v2) hnode (g m) v (hg m)
              (fun h => by
                rcases h with h | h
                · exact hAv h
                · exact hBv h) hch2

/-- Completeness of the cycle detection on a mutually calling pair: the
collected cycle errors name both bundles of the pair. -/
theorem cycleErrors_mutual {decls : List Declaration} {A B : String}
    (hedgeAB : B ∈ resolvedAdj decls A) (hedgeBA : A ∈ resolvedAdj decls B)
    (hAB : A ≠ B) : namesCycle A B (cycleErrors decls) := by
  have hg : ∀ x, resolvedAdj decls x ⊆ decls.map (·.name) :=
    fun x => resolvedAdj_subset
  have hAN : A ∈ decls.map (·.name) := resolvedAdj_source_declared hedgeAB
  have hfin : A ∈ (dfsKids (resolvedAdj decls) (decls.length + 1) [] []
      (decls.map (·.name))).2 :=
    dfsKids_all_visited (by omega) _ [] A hAN
  have hnode : ∀ v n, n ∈ decls.map (·.name) → ¬ (A ∈ v ∨ B ∈ v) →
      (A ∈ (dfsNode (resolvedAdj decls) (decls.length + 1) [] v n).2 ∨
        B ∈ (dfsNode (resolvedAdj decls) (decls.length + 1) [] v n).2) →
      ∃ e ∈ (dfsNode (resolvedAdj decls) (decls.length + 1) [] v n).1, ∃ p,
        e = StructuralError.cyclicDependency ⟨p⟩ ∧ A ∈ p ∧ B ∈ p := by
    intro v n hn hnP hP
    refine dfsNode_pair_cycle hg hedgeAB hedgeBA hAB (decls.length + 1) [] v n
      List.nodup_nil (by intro x hx; cases hx) hn ?_ (List.not_mem_nil A)
      (List.not_mem_nil B) (fun h => hnP (Or.inl h)) (fun h => hnP (Or.inr h)) hP
    simp
  obtain ⟨e, he, p, hp, hpA, hpB⟩ :=
    dfsKids_transition (decls.map (·.name))
      (fun v2 => A ∈ v2 ∨ B ∈ v2) hnode (decls.map (·.name)) []
      (fun x hx => hx)
      (fun h => by
        rcases h with h | h
        · exact List.not_mem_nil A h
        · exact List.not_mem_nil B h)
      (Or.inl hfin)
  unfold cycleErrors
  exact ⟨p, hp ▸ he, hpA, hpB⟩

/-- The Resolver reports a cycle error naming both members of a mutually
calling pair and returns no Program. -/
theorem from_pre_ast_mutual_cycle {p : PreAST} {A B : String}
    (hedgeAB : B ∈ resolvedAdj p.decls A) (hedgeBA : A ∈ resolvedAdj p.decls B)
    (hAB : A ≠ B) :
    ∃ errs, AST.from_pre_ast p = .error errs ∧ namesCycle A B errs := by
  obtain ⟨path, hmem, hA, hB⟩ := cycleErrors_mutual hedgeAB hedgeBA hAB
  have hmem2 : StructuralError.cyclicDependency ⟨path⟩ ∈ structuralErrors p :=
    List.mem_append_right _ hmem
  cases hse : structuralErrors p with
  | nil => rw [hse] at hmem2; cases hmem2
  | cons e es =>
    rw [hse] at hmem2
    exact ⟨e :: es, by simp [AST.from_pre_ast, hse], path, hmem2, hA, hB⟩

/-- An emitted set is closed when it contains every call target of every
member. -/
def ClosedUnder (g : String → List String) (em : List String) : Prop :=
  ∀ x ∈ em, ∀ c ∈ g x, c ∈ em

/-- A closed set contains every node reachable from a member. -/
theorem closed_reach {g : String → List String} {em : List String}
    (hc : ClosedUnder g em) {a b : String} (hw : Walks g a b) (ha : a ∈ em) :
    b ∈ em := by
  induction hw with
  | @single b1 h => exact hc a ha b1 h
  | @tail b1 c1 w h ih => exact hc b1 ih c1 h

/-- A walk can be extended by an edge at the front. -/
theorem walks_cons {g : String → List String} {a b c : String}
    (h : b ∈ g a) (hw : Walks g b c) : Walks g a c := by
  induction hw with
  | @single c1 h2 => exact Walks.tail (Walks.single h) h2
  | @tail c1 d1 w h2 ih => exact Walks.tail ih h2

/-- Reflexive closure of walks: equality or a nonempty walk. -/
def ReachStar (g : String → List String) (a b : String) : Prop :=
  a = b ∨ Walks g a b

/-- An edge followed by a reflexive walk is a walk. -/
theorem walks_of_edge_reachStar {g : String → List String} {a b c : String}
    (h : b ∈ g a) (hr : ReachStar g b c) : Walks g a c := by
  rcases hr with rfl | hw
  · exact Walks.single h
  · exact walks_cons h hw

/-- Walks transfer between graphs with the same edge membership. -/
theorem walks_equiv {g1 g2 : String → List String}
    (h : ∀ x y, y ∈ g1 x ↔ y ∈ g2 x) {a b : String} :
    Walks g1 a b → Walks g2 a b := by
  intro hw
  induction hw with
  | @single b1 h1 => exact Walks.single ((h _ _).1 h1)
  | @tail b1 c1 w h1 ih => exact Walks.tail ih ((h _ _).1 h1)

/-- Appending nodes whose edges all point into the old part preserves
topological order. -/
theorem topo_append {g : String → List String} {done new : List String}
    (h1 : TopoOrdered g done) (h2 : ∀ a ∈ new, ∀ c ∈ g a, c ∈ done) :
    TopoOrdered g (done ++ new) := by
  intro l1 a l2 hsplit c hc
  rcases List.append_eq_append_iff.1 hsplit with ⟨a2, hl1, hX⟩ | ⟨c2, hdone, hX⟩
  · have haX : a ∈ new := by
      rw [hX]; exact List.mem_append_right a2 (List.mem_cons_self a l2)
    have : c ∈ done := h2 a haX c hc
    rw [hl1]
    exact List.mem_append_left a2 this
  · cases c2 with
    | nil =>
      simp only [List.nil_append] at hX
      have haX : a ∈ new := by
        rw [← hX]; exact List.mem_cons_self a l2
      have : c ∈ done := h2 a haX c hc
      rw [hdone] at this
      simpa using this
    | cons e c3 =>
      injection hX with he hrest
      subst he
      exact h1 l1 a c3 hdone c hc

/-- Extending a chained stack by an explored child keeps it chained. -/
theorem stackChain_push {g : String → List String} {st : List String}
    {n m : String} (hc : stackChain g st n) (hm : m ∈ g n) :
    stackChain g (n :: st) m := by
  refine ⟨?_, ?_⟩
  · rw [List.chain'_cons']
    refine ⟨?_, hc.1⟩
    intro b hb
    cases st with
    | nil => simp at hb
    | cons c t =>
      simp only [List.head?_cons, Option.mem_def, Option.some.injEq] at hb
      subst hb
      exact hc.2 _ t rfl
  · intro h t ht
    injection ht with h1 _
    subst h1
    exact hm

/-- Invariant of the post-order emitter: the emitted list is closed,
topologically ordered, duplicate-free, and contains no node of the
recursion stack. -/
def EmitInv (g : String → List String) (st2 em : List String) : Prop :=
  ClosedUnder g em ∧ TopoOrdered g em ∧ em.Nodup ∧ ∀ s ∈ st2, s ∉ em

/-- The fold inside `emitNode` is `emitRoots`. -/
theorem emitRoots_eq_foldl (g : String → List String) (f : Nat) :
    ∀ (l em : List String),
      l.foldl (fun acc m => emitNode g f acc m) em = emitRoots g f em l := by
  intro l
  induction l with
  | nil => intro em; rfl
  | cons m ms ih => intro em; simp only [List.foldl_cons, emitRoots]; exact ih _

/-- Unfolding of a post-order emission step with positive fuel. -/
theorem emitNode_succ (g : String → List String) (f : Nat) (em : List String)
    (n : String) :
    emitNode g (f + 1) em n =
      if n ∈ em then em else emitRoots g f em (g n) ++ [n] := by
  simp only [emitNode]
  split_ifs with h1
  · rfl
  · rw [emitRoots_eq_foldl]

/-- Emission of a list of nodes, given the specification of a single
emission: the emitted list grows, covers the listed nodes, keeps the
invariant, and adds only nodes reachable from the listed ones. -/
theorem emitRoots_spec_of_node {g : String → List String} {N : List String}
    {f : Nat} {st2 : List String}
    (hnode : ∀ em m, stackChain g st2 m → m ∈ N → EmitInv g st2 em →
      ∃ d, emitNode g f em m = em ++ d ∧ m ∈ em ++ d ∧ EmitInv g st2 (em ++ d) ∧
        ∀ x ∈ d, ReachStar g m x) :
    ∀ l, (∀ m ∈ l, stackChain g st2 m ∧ m ∈ N) →
      ∀ em, EmitInv g st2 em →
      ∃ d, emitRoots g f em l = em ++ d ∧ (∀ m ∈ l, m ∈ em ++ d) ∧
        EmitInv g st2 (em ++ d) ∧ ∀ x ∈ d, ∃ m ∈ l, ReachStar g m x := by
  intro l
  induction l with
  | nil =>
    intro _ em hinv
    refine ⟨[], by simp [emitRoots], by simp, by simpa using hinv, by simp⟩
  | cons m ms ih =>
    intro hall em hinv
    obtain ⟨d1, he1, hm1, hinv1, hr1⟩ :=
      hnode em m (hall m (List.mem_cons_self m ms)).1 (hall m (List.mem_cons_self m ms)).2 hinv
    obtain ⟨d2, he2, hm2, hinv2, hr2⟩ :=
      ih (fun x hx => hall x (List.mem_cons_of_mem m hx)) (em ++ d1) hinv1
    refine ⟨d1 ++ d2, ?_, ?_, ?_, ?_⟩
    · simp only [emitRoots]
      rw [he1, he2, List.append_assoc]
    · intro x hx
      rcases List.mem_cons.1 hx with hxm | hx2
      · subst hxm
        rw [← List.append_assoc]
        exact List.mem_append_left _ hm1
      · rw [← List.append_assoc]
        exact hm2 x hx2
    · rw [← List.append_assoc]
      exact hinv2
    · intro x hx
      rcases List.mem_append.1 hx with h | h
      · exact ⟨m, List.mem_cons_self m ms, hr1 x h⟩
      · obtain ⟨m2, hm2b, hr⟩ := hr2 x h
        exact ⟨m2, List.mem_cons_of_mem m hm2b, hr⟩

/-- Specification of one post-order emission on an acyclic graph: the
emitted list grows by nodes reachable from the emitted node, ends up
containing it, and the invariant (closure, topological order, no
duplicates, stack disjointness) is preserved. -/
theorem emitNode_spec {g : String → List String} {N : List String}
    (hg : ∀ x, g x ⊆ N) (hac : Acyclic g) :
    ∀ f st n em, stackChain g st n → st.Nodup → st ⊆ N → n ∈ N →
      N.length + 1 ≤ f + st.length → EmitInv g st em →
      ∃ d, emitNode g f em n = em ++ d ∧ n ∈ em ++ d ∧
        EmitInv g st (em ++ d) ∧ ∀ x ∈ d, ReachStar g n x := by
  intro f
  induction f with
  | zero =>
    intro st n em hchain hnd hstN hnN hfuel hinv
    exfalso
    have := nodup_subset_length hnd hstN
    omega
  | succ f ih =>
    intro st n em hchain hnd hstN hnN hfuel hinv
    rw [emitNode_succ]
    by_cases hmem : n ∈ em
    · rw [if_pos hmem]
      exact ⟨[], (List.append_nil em).symm, by simpa using hmem,
        by simpa using hinv, by simp⟩
    · rw [if_neg hmem]
      have hnst : n ∉ st := fun h => hac n (walks_of_stackChain hchain h)
      have hnd2 : (n :: st).Nodup := List.nodup_cons.2 ⟨hnst, hnd⟩
      have hsub2 : (n :: st) ⊆ N := fun x hx => by
        rcases List.mem_cons.1 hx with hxn | hx2
        · rw [hxn]; exact hnN
        · exact hstN hx2
      have hinv2 : EmitInv g (n :: st) em := by
        obtain ⟨hc, htp, hndm, hstm⟩ := hinv
        refine ⟨hc, htp, hndm, ?_⟩
        intro s hs
        rcases List.mem_cons.1 hs with hsn | hs2
        · rw [hsn]; exact hmem
        · exact hstm s hs2
      have hnodech : ∀ em2 m, stackChain g (n :: st) m → m ∈ N →
          EmitInv g (n :: st) em2 →
          ∃ d, emitNode g f em2 m = em2 ++ d ∧ m ∈ em2 ++ d ∧
            EmitInv g (n :: st) (em2 ++ d) ∧ ∀ x ∈ d, ReachStar g m x := by
        intro em2 m hch hm hin
        exact ih (n :: st) m em2 hch hnd2 hsub2 hm
          (by simp only [List.length_cons]; omega) hin
      have hallch : ∀ m ∈ g n, stackChain g (n :: st) m ∧ m ∈ N :=
        fun m hm => ⟨stackChain_push hchain hm, hg n hm⟩
      obtain ⟨d1, he1, hmall, hinv3, hreach⟩ :=
        emitRoots_spec_of_node hnodech (g n) hallch em hinv2
      obtain ⟨hc3, htp3, hnd3, hstm3⟩ := hinv3
      refine ⟨d1 ++ [n], ?_, ?_, ?_, ?_⟩
      · rw [he1, List.append_assoc]
      · rw [← List.append_assoc]
        exact List.mem_append_right _ (by simp)
      · rw [← List.append_assoc]
        refine ⟨?_, ?_, ?_, ?_⟩
        · intro x hx c hc
          rcases List.mem_append.1 hx with hx1 | hx2
          · exact List.mem_append_left _ (hc3 x hx1 c hc)
          · have hxn : x = n := by simpa using hx2
            subst hxn
            exact List.mem_append_left _ (hmall c hc)
        · refine topo_append htp3 ?_
          intro a ha c hc
          have han : a = n := by simpa using ha
          subst han
          exact hmall c hc
        · refine List.Nodup.append hnd3 (List.nodup_singleton n) ?_
          intro x hx1 hx2
          have hxn : x = n := by simpa using hx2
          subst hxn
          exact hstm3 x (List.mem_cons_self x st) hx1
        · intro s hs hmem2
          rcases List.mem_append.1 hmem2 with h | h
          · exact hstm3 s (List.mem_cons_of_mem n hs) h
          · have hsn : s = n := by simpa using h
            exact hnst (hsn ▸ hs)
      · intro x hx
        rcases List.mem_append.1 hx with h | h
        · obtain ⟨m, hm, hr⟩ := hreach x h
          exact Or.inr (walks_of_edge_reachStar hm hr)
        · have hxn : x = n := by simpa using h
          exact Or.inl hxn.symm

/-- The endpoint of a walk is a target of some edge, hence inside any set
bounding the edges of the graph. -/
theorem walks_target_mem {g : String → List String} {N : List String}
    (hg : ∀ x, g x ⊆ N) {a b : String} (hw : Walks g a b) : b ∈ N := by
  induction hw with
  | @single b1 h => exact hg a h
  | @tail b1 c1 w h ih => exact hg b1 h

/-- The emission order of `generate_all` on a program with an acyclic
resolved call graph: exactly the declared bundle names, each once, in an
order where every resolved callee comes strictly before its caller. -/
theorem emissionOrder_spec {ast : AST} (hac : Acyclic (resolvedAdj ast.decls)) :
    (∀ x, x ∈ emissionOrder ast ↔ x ∈ ast.decls.map (·.name)) ∧
    (emissionOrder ast).Nodup ∧
    TopoOrdered (resolvedAdj ast.decls) (emissionOrder ast) := by
  have hmemg : ∀ x y, y ∈ genAdj ast.decls x ↔ y ∈ resolvedAdj ast.decls x :=
    fun x y => mem_sortByName
  have hg : ∀ x, genAdj ast.decls x ⊆ ast.decls.map (·.name) :=
    fun x y hy => resolvedAdj_subset ((hmemg x y).1 hy)
  have hacg : Acyclic (genAdj ast.decls) :=
    fun n hw => hac n (walks_equiv hmemg hw)
  have hnode : ∀ em m, stackChain (genAdj ast.decls) [] m →
      m ∈ ast.decls.map (·.name) → EmitInv (genAdj ast.decls) [] em →
      ∃ d, emitNode (genAdj ast.decls) (ast.decls.length + 1) em m = em ++ d ∧
        m ∈ em ++ d ∧ EmitInv (genAdj ast.decls) [] (em ++ d) ∧
        ∀ x ∈ d, ReachStar (genAdj ast.decls) m x := by
    intro em m hch hm hin
    refine emitNode_spec hg hacg (ast.decls.length + 1) [] m em hch
      List.nodup_nil (by intro x hx; cases hx) hm ?_ hin
    simp
  have hroots : ∀ m ∈ sortByName (ast.decls.map (·.name)),
      stackChain (genAdj ast.decls) [] m ∧ m ∈ ast.decls.map (·.name) :=
    fun m hm => ⟨⟨List.chain'_nil, fun h t ht => by cases ht⟩, mem_sortByName.1 hm⟩
  have hinit : EmitInv (genAdj ast.decls) [] [] := by
    refine ⟨?_, ?_, List.nodup_nil, ?_⟩
    · intro x hx; cases hx
    · intro l1 a l2 h; simp at h
    · intro s hs; cases hs
  obtain ⟨d, he, hall, hinv, hreach⟩ :=
    emitRoots_spec_of_node hnode (sortByName (ast.decls.map (·.name))) hroots [] hinit
  have hord : emissionOrder ast = d := by
    unfold emissionOrder
    rw [he]
    simp
  obtain ⟨hc, htp, hnd, _⟩ := hinv
  refine ⟨?_, ?_, ?_⟩
  · intro x
    rw [hord]
    constructor
    · intro hx
      obtain ⟨m, hm, hr⟩ := hreach x hx
      rcases hr with rfl | hw
      · exact mem_sortByName.1 hm
      · exact walks_target_mem hg hw
    · intro hx
      have := hall x (mem_sortByName.2 hx)
      simpa using this
  · rw [hord]
    simpa using hnd
  · rw [hord]
    intro l1 a l2 hsplit c hc2
    have htp2 : TopoOrdered (genAdj ast.decls) d := by simpa using htp
    exact htp2 l1 a l2 hsplit c ((hmemg a c).2 hc2)

/-- When the duplicate scan finds nothing, no scanned declaration clashes
with the initial namespace. -/
theorem findDup_none {ns : List Declaration} {l : List Declaration}
    (h : findDup ns l = none) : ∀ d ∈ l, lookupName ns d.name = none := by
  induction l generalizing ns with
  | nil => intro d hd; cases hd
  | cons d rest ih =>
    intro d2 hd2
    unfold findDup at h
    cases hl : lookupName ns d.name with
    | some prev => rw [hl] at h; cases h
    | none =>
      rw [hl] at h
      rcases List.mem_cons.1 hd2 with rfl | hd3
      · exact hl
      · have h2 := ih h d2 hd3
        rw [lookupName_none] at h2 ⊢
        intro d3 hd4
        exact h2 d3 (List.mem_append_left _ hd4)

/-- A clash-free merge of nodup-named declarations into a namespace with
nodup names keeps the names nodup. -/
theorem findDup_none_nodup {ns l : List Declaration}
    (h : findDup ns l = none) (hnd : (ns.map (·.name)).Nodup) :
    (((ns ++ l).map (·.name))).Nodup := by
  induction l generalizing ns with
  | nil => simpa using hnd
  | cons d rest ih =>
    unfold findDup at h
    cases hl : lookupName ns d.name with
    | some prev => rw [hl] at h; cases h
    | none =>
      rw [hl] at h
      have hnotin : d.name ∉ ns.map (·.name) := by
        intro hmem
        obtain ⟨d2, hd2, hd2n⟩ := List.mem_map.1 hmem
        exact (lookupName_none.1 hl) d2 hd2 hd2n
      have hnd2 : ((ns ++ [d]).map (·.name)).Nodup := by
        rw [List.map_append]
        refine List.Nodup.append hnd (List.nodup_singleton _) ?_
        intro x hx1 hx2
        have hxd : x = d.name := by simpa using hx2
        exact hnotin (hxd ▸ hx1)
      have := ih h hnd2
      rw [List.append_cons]
      exact this

/-- A merge of declarations whose combined names are nodup finds no
duplicate. -/
theorem findDup_none_of_nodup {ns l : List Declaration}
    (h : (((ns ++ l).map (·.name))).Nodup) : findDup ns l = none := by
  induction l generalizing ns with
  | nil => rfl
  | cons d rest ih =>
    have h0 := h
    have hmap : ((ns ++ d :: rest).map (·.name)) =
        ns.map (·.name) ++ d.name :: rest.map (·.name) := by
      rw [List.map_append]; rfl
    rw [hmap] at h
    have hdis := (List.nodup_append.1 h).2.2
    have hnotin : d.name ∉ ns.map (·.name) :=
      fun hmem => hdis hmem (List.mem_cons_self _ _)
    have hl : lookupName ns d.name = none := by
      rw [lookupName_none]
      intro d2 hd2 hd2n
      exact hnotin (hd2n ▸ List.mem_map_of_mem (·.name) hd2)
    unfold findDup
    rw [hl]
    apply ih
    rw [← List.append_cons]
    exact h0

/-- Sequential merge of a list of (file, SourceUnit) pairs into a
namespace, failing as soon as one merge fails. -/
def addAll (p : PreAST) : List (String × SourceUnit) → Option PreAST
  | [] => some p
  | (fn, su) :: rest =>
    match p.add_parsed_file fn su with
    | (.ok _, p2) => addAll p2 rest
    | (.error _, _) => none

/-- A successful sequence of merges concatenates all declarations in
order. -/
theorem addAll_decls {us : List (String × SourceUnit)} :
    ∀ {p q : PreAST}, addAll p us = some q →
      q.decls = p.decls ++ us.flatMap (fun u => u.2.declarations) := by
  induction us with
  | nil =>
    intro p q h
    cases h
    simp
  | cons u rest ih =>
    intro p q h
    obtain ⟨fn, su⟩ := u
    unfold addAll at h
    cases hf : findDup p.decls su.declarations with
    | some e => simp [PreAST.add_parsed_file, hf] at h
    | none =>
      simp only [PreAST.add_parsed_file, hf] at h
      have := ih h
      rw [this]
      simp [List.append_assoc]

/-- A successful sequence of merges into a nodup-named namespace keeps the
names nodup. -/
theorem addAll_nodup {us : List (String × SourceUnit)} :
    ∀ {p q : PreAST}, addAll p us = some q →
      (p.decls.map (·.name)).Nodup → (q.decls.map (·.name)).Nodup := by
  induction us with
  | nil =>
    intro p q h hnd
    cases h
    exact hnd
  | cons u rest ih =>
    intro p q h hnd
    obtain ⟨fn, su⟩ := u
    unfold addAll at h
    cases hf : findDup p.decls su.declarations with
    | some e => simp [PreAST.add_parsed_file, hf] at h
    | none =>
      simp only [PreAST.add_parsed_file, hf] at h
      exact ih h (findDup_none_nodup hf hnd)

/-- Lookup is invariant under permutation when the names are nodup. -/
theorem lookupName_eq_of_perm {l1 l2 : List Declaration} (hperm : l1.Perm l2)
    (hnd : (l1.map (·.name)).Nodup) (n : String) :
    lookupName l1 n = lookupName l2 n := by
  have hnd2 : (l2.map (·.name)).Nodup := ((hperm.map (·.name)).nodup_iff).1 hnd
  cases h1 : lookupName l1 n with
  | none =>
    rw [lookupName_none] at h1
    -- no member of l2 has the name either
    rw [eq_comm, lookupName_none]
    intro d hd
    exact h1 d (hperm.mem_iff.2 hd)
  | some d =>
    obtain ⟨hd, hdn⟩ := lookupName_some h1
    rw [eq_comm, ← hdn]
    exact lookupName_self hnd2 (hperm.mem_iff.1 hd)

/-- When every call target of every declaration is declared, no unknown
reference error is collected. -/
theorem unknownRefErrors_nil {decls : List Declaration}
    (h : ∀ d ∈ decls, ∀ c ∈ d.callTargets, declaredIn decls c = true) :
    unknownRefErrors decls = [] := by
  unfold unknownRefErrors
  rw [List.flatMap_eq_nil_iff]
  intro d hd
  rw [List.map_eq_nil_iff, List.filter_eq_nil_iff]
  intro c hc
  rw [h d hd c hc]
  simp

/-- Every individual unresolved reference contributes its own error to the
collected set. -/
theorem mem_unknownRefErrors {decls : List Declaration} {d : Declaration} {c : String}
    (hd : d ∈ decls) (hc : c ∈ d.callTargets)
    (hund : declaredIn decls c = false) :
    StructuralError.unknownReference ⟨d.name, c⟩ ∈ unknownRefErrors decls := by
  unfold unknownRefErrors
  rw [List.mem_flatMap]
  refine ⟨d, hd, ?_⟩
  apply List.mem_map_of_mem
  rw [List.mem_filter]
  exact ⟨hc, by rw [hund]; rfl⟩

/-- The Resolver returns a Program exactly when no structural error was
collected. -/
theorem from_pre_ast_ok_iff {p : PreAST} :
    (∃ a, AST.from_pre_ast p = .ok a) ↔ structuralErrors p = [] := by
  cases hse : structuralErrors p with
  | nil =>
    exact ⟨fun _ => rfl, fun _ => ⟨⟨p.decls⟩, by simp [AST.from_pre_ast, hse]⟩⟩
  | cons e es =>
    constructor
    · rintro ⟨a, ha⟩
      simp [AST.from_pre_ast, hse] at ha
    · intro h
      cases h
  
/-- When no structural error is collected, the Resolver returns the
Program carrying exactly the namespace declarations. -/
theorem from_pre_ast_ok_of_nil {p : PreAST} (h : structuralErrors p = []) :
    AST.from_pre_ast p = .ok ⟨p.decls⟩ := by
  simp [AST.from_pre_ast, h]

/-- When a structural error is collected, the Resolver returns the whole
collected set. -/
theorem from_pre_ast_error_of_ne {p : PreAST} (h : structuralErrors p ≠ []) :
    AST.from_pre_ast p = .error (structuralErrors p) := by
  cases hse : structuralErrors p with
  | nil => exact absurd hse h
  | cons e es => simp [AST.from_pre_ast, hse]

/-- C1: adding a SourceUnit that declares a qualified name already present
in the Namespace fails with a DuplicateDeclarationError, and the Namespace
after the failed call is exactly the Namespace before it (atomic merge, no
partial insertion). -/
theorem claim_c1_add_duplicate_atomic (self : PreAST) (filename : String)
    (file : SourceUnit) (d : Declaration) (hd : d ∈ file.declarations)
    (hname : d.name ∈ self.names) :
    ∃ e, self.add_parsed_file filename file = (.error e, self) := by
  cases hf : findDup self.decls file.declarations with
  | some e => exact ⟨e, by simp [PreAST.add_parsed_file, hf]⟩
  | none =>
    exfalso
    have hnone := findDup_none hf d hd
    rw [lookupName_none] at hnone
    obtain ⟨d0, hd0, hd0n⟩ := List.mem_map.1 (by simpa [PreAST.names] using hname)
    exact hnone d0 hd0 hd0n

/-- Witness for C1 at a concrete namespace and source unit sharing the
name x. -/
theorem claim_c1_witness :
    ((⟨"x", [], [], "b.ncf"⟩ : Declaration) ∈
        (⟨"b.ncf", [⟨"x", [], [], "b.ncf"⟩]⟩ : SourceUnit).declarations) ∧
    ("x" ∈ (PreAST.mk [⟨"x", [], [], "a.ncf"⟩]).names) ∧
    (∃ e, (PreAST.mk [⟨"x", [], [], "a.ncf"⟩]).add_parsed_file "b.ncf"
        ⟨"b.ncf", [⟨"x", [], [], "b.ncf"⟩]⟩ =
      (.error e, PreAST.mk [⟨"x", [], [], "a.ncf"⟩])) :=
  ⟨by simp, by simp [PreAST.names],
    claim_c1_add_duplicate_atomic (PreAST.mk [⟨"x", [], [], "a.ncf"⟩]) "b.ncf"
      ⟨"b.ncf", [⟨"x", [], [], "b.ncf"⟩]⟩ ⟨"x", [], [], "b.ncf"⟩ (by simp)
      (by simp [PreAST.names])⟩

/-- C4: analysis is read-only and idempotent — running analyze twice on
the same Program yields the same AnalysisReport, and the Program read
after both runs equals the Program before. -/
theorem claim_c4_analyze_idempotent (a : AST) :
    (AST.analyzeSt (AST.analyzeSt a).2).1 = (AST.analyzeSt a).1 ∧
    (AST.analyzeSt (AST.analyzeSt a).2).2 = a ∧
    (AST.analyzeSt a).1 = a.analyze :=
  ⟨rfl, rfl, rfl⟩

/-- C6 counterexample: the success value generate_all returns to the
caller is the unit value and carries no artifacts — two programs whose
artifact outputs differ give the caller identical return values, so the
claimed interface returning the artifact vector is not what the code has
(src/src/main.rs matches the call with Ok(())). -/
theorem claim_c6_counterexample :
    (CFEngine.new.generate_all ⟨[⟨"a", [], [], "f"⟩]⟩).1 =
      (CFEngine.new.generate_all ⟨[]⟩).1 ∧
    (CFEngine.new.generate_all ⟨[⟨"a", [], [], "f"⟩]⟩).2.artifacts ≠
      (CFEngine.new.generate_all ⟨[]⟩).2.artifacts := by
  refine ⟨rfl, ?_⟩
  decide

/-- C6 amended: generate_all has the interface
Result((), GenerationError): on success the caller receives the unit
value, and the produced artifacts are appended to the own state of
the generator rather than returned in the Result payload. -/
theorem claim_c6_amended (e : CFEngine) (ast : AST) :
    (e.generate_all ast).1 = .ok () ∧
    (e.generate_all ast).2.artifacts =
      e.artifacts ++ (emissionOrder ast).map
        (fun n => ⟨n, renderBundle ast.decls n, true⟩) :=
  ⟨rfl, rfl⟩

/-- C7: when all merges succeed, the final Namespace contents (the
name-to-declaration mapping) do not depend on the order in which the
SourceUnits were added. -/
theorem claim_c7_order_independent (us1 us2 : List (String × SourceUnit))
    (hperm : us1.Perm us2) (ns1 ns2 : PreAST)
    (h1 : addAll PreAST.new us1 = some ns1) (h2 : addAll PreAST.new us2 = some ns2) :
    ∀ n, lookupName ns1.decls n = lookupName ns2.decls n := by
  intro n
  have e1 := addAll_decls h1
  have e2 := addAll_decls h2
  simp only [PreAST.new, List.nil_append] at e1 e2
  have hnd1 : (ns1.decls.map (·.name)).Nodup := addAll_nodup h1 (by simp [PreAST.new])
  have hpermd : ns1.decls.Perm ns2.decls := by
    rw [e1, e2, List.flatMap_def, List.flatMap_def]
    exact (hperm.map _).flatten
  exact lookupName_eq_of_perm hpermd hnd1 n

/-- Witness for C7 at two concrete single-declaration units added in both
orders. -/
theorem claim_c7_witness :
    ([("f1", (⟨"f1", [⟨"a", [], [], "f1"⟩]⟩ : SourceUnit)),
      ("f2", (⟨"f2", [⟨"b", [], [], "f2"⟩]⟩ : SourceUnit))].Perm
      [("f2", (⟨"f2", [⟨"b", [], [], "f2"⟩]⟩ : SourceUnit)),
       ("f1", (⟨"f1", [⟨"a", [], [], "f1"⟩]⟩ : SourceUnit))]) ∧
    (addAll PreAST.new
      [("f1", (⟨"f1", [⟨"a", [], [], "f1"⟩]⟩ : SourceUnit)),
       ("f2", (⟨"f2", [⟨"b", [], [], "f2"⟩]⟩ : SourceUnit))] =
      some ⟨[⟨"a", [], [], "f1"⟩, ⟨"b", [], [], "f2"⟩]⟩) ∧
    (addAll PreAST.new
      [("f2", (⟨"f2", [⟨"b", [], [], "f2"⟩]⟩ : SourceUnit)),
       ("f1", (⟨"f1", [⟨"a", [], [], "f1"⟩]⟩ : SourceUnit))] =
      some ⟨[⟨"b", [], [], "f2"⟩, ⟨"a", [], [], "f1"⟩]⟩) ∧
    lookupName [⟨"a", [], [], "f1"⟩, ⟨"b", [], [], "f2"⟩] "a" =
      lookupName [⟨"b", [], [], "f2"⟩, ⟨"a", [], [], "f1"⟩] "a" := by
  refine ⟨List.Perm.swap _ _ _, by decide, by decide, ?_⟩
  exact claim_c7_order_independent
    [("f1", (⟨"f1", [⟨"a", [], [], "f1"⟩]⟩ : SourceUnit)),
     ("f2", (⟨"f2", [⟨"b", [], [], "f2"⟩]⟩ : SourceUnit))]
    [("f2", (⟨"f2", [⟨"b", [], [], "f2"⟩]⟩ : SourceUnit)),
     ("f1", (⟨"f1", [⟨"a", [], [], "f1"⟩]⟩ : SourceUnit))]
    (List.Perm.swap _ _ _)
    ⟨[⟨"a", [], [], "f1"⟩, ⟨"b", [], [], "f2"⟩]⟩
    ⟨[⟨"b", [], [], "f2"⟩, ⟨"a", [], [], "f1"⟩]⟩
    (by decide) (by decide) "a"

/-- C10: generate_all takes the Program by shared reference and leaves it
unchanged — in the state-passing form only the engine component changes
and the Program component after the call is the Program before it. -/
theorem claim_c10_generator_frame (e : CFEngine) (a : AST) :
    (CFEngine.generateAllSt e a).2 = a ∧
    (CFEngine.generateAllSt e a).1 = e.generate_all a :=
  ⟨rfl, rfl⟩

/-- C8: Program::build collects all structural errors of the whole
Namespace and returns them together (every unresolved reference
contributes its error; a mutually calling pair contributes a cycle
error), returns the whole collected set on failure, and returns a Program
exactly when the collected error set is empty. -/
theorem claim_c8_collect_all (p : PreAST) :
    ((∃ a, AST.from_pre_ast p = .ok a) ↔ structuralErrors p = []) ∧
    (structuralErrors p ≠ [] →
      AST.from_pre_ast p = .error (structuralErrors p)) ∧
    (∀ d ∈ p.decls, ∀ c ∈ d.callTargets, declaredIn p.decls c = false →
      StructuralError.unknownReference ⟨d.name, c⟩ ∈ structuralErrors p) ∧
    (∀ A B, A ≠ B → B ∈ resolvedAdj p.decls A → A ∈ resolvedAdj p.decls B →
      ∃ path, StructuralError.cyclicDependency ⟨path⟩ ∈ structuralErrors p) := by
  refine ⟨from_pre_ast_ok_iff, from_pre_ast_error_of_ne, ?_, ?_⟩
  · intro d hd c hc hund
    exact List.mem_append_left _ (mem_unknownRefErrors hd hc hund)
  · intro A B hAB hab hba
    obtain ⟨path, hmem, _, _⟩ := cycleErrors_mutual hab hba hAB
    exact ⟨path, List.mem_append_right _ hmem⟩

/-- Witness for C8 at a concrete namespace with one unresolved reference. -/
theorem claim_c8_witness :
    (structuralErrors ⟨[⟨"a", [], [Statement.bundleCall "zz" []], "f"⟩]⟩ ≠ [] →
      AST.from_pre_ast ⟨[⟨"a", [], [Statement.bundleCall "zz" []], "f"⟩]⟩ =
        .error (structuralErrors ⟨[⟨"a", [], [Statement.bundleCall "zz" []], "f"⟩]⟩)) ∧
    (structuralErrors ⟨[⟨"a", [], [Statement.bundleCall "zz" []], "f"⟩]⟩ ≠ []) ∧
    StructuralError.unknownReference ⟨"a", "zz"⟩ ∈
      structuralErrors ⟨[⟨"a", [], [Statement.bundleCall "zz" []], "f"⟩]⟩ := by
  refine ⟨(claim_c8_collect_all ⟨[⟨"a", [], [Statement.bundleCall "zz" []], "f"⟩]⟩).2.1,
    by decide, ?_⟩
  exact (claim_c8_collect_all ⟨[⟨"a", [], [Statement.bundleCall "zz" []], "f"⟩]⟩).2.2.1
    ⟨"a", [], [Statement.bundleCall "zz" []], "f"⟩ (by simp) "zz" (by decide) (by decide)

/-- C9: for a valid single-file input (its parse succeeds, its declaration
names are distinct, all its references resolve within the file and its
call graph passes the acyclicity check), parse_file followed by
Namespace::add followed by Program::build succeeds, and the resulting
declaration count of the Program equals the declaration count of the parsed
SourceUnit. -/
theorem claim_c9_single_file
    (parse : String → String → Except SyntaxError SourceUnit)
    (identity content : String) (su : SourceUnit)
    (_hparse : parse identity content = .ok su)
    (hnd : (su.declarations.map (·.name)).Nodup)
    (hclosed : ∀ d ∈ su.declarations, ∀ c ∈ d.callTargets,
      declaredIn su.declarations c = true)
    (hacy : acyclicb su.declarations = true) :
    ∃ ns ast, PreAST.new.add_parsed_file identity su = (.ok (), ns) ∧
      AST.from_pre_ast ns = .ok ast ∧
      ast.decls.length = su.declarations.length := by
  have hfd : findDup ([] : List Declaration) su.declarations = none :=
    findDup_none_of_nodup (by simpa using hnd)
  refine ⟨⟨su.declarations⟩, ⟨su.declarations⟩, ?_, ?_, rfl⟩
  · simp [PreAST.add_parsed_file, PreAST.new, hfd]
  · apply from_pre_ast_ok_of_nil
    unfold structuralErrors
    rw [unknownRefErrors_nil hclosed,
      cycleErrors_nil (acyclicb_sound hnd hacy)]
    rfl

/-- Witness for C9 at a concrete two-bundle single file where main calls
helper. -/
theorem claim_c9_witness :
    (((fun _ _ => Except.ok (⟨"m.ncf",
        [⟨"main", [], [Statement.bundleCall "helper" []], "m.ncf"⟩,
         ⟨"helper", [], [], "m.ncf"⟩]⟩ : SourceUnit)) :
        String → String → Except SyntaxError SourceUnit) "m.ncf" "text" =
      Except.ok (⟨"m.ncf",
        [⟨"main", [], [Statement.bundleCall "helper" []], "m.ncf"⟩,
         ⟨"helper", [], [], "m.ncf"⟩]⟩ : SourceUnit)) ∧
    (∃ ns ast, PreAST.new.add_parsed_file "m.ncf"
        (⟨"m.ncf",
          [⟨"main", [], [Statement.bundleCall "helper" []], "m.ncf"⟩,
           ⟨"helper", [], [], "m.ncf"⟩]⟩ : SourceUnit) = (.ok (), ns) ∧
      AST.from_pre_ast ns = .ok ast ∧
      ast.decls.length =
        (⟨"m.ncf",
          [⟨"main", [], [Statement.bundleCall "helper" []], "m.ncf"⟩,
           ⟨"helper", [], [], "m.ncf"⟩]⟩ : SourceUnit).declarations.length) := by
  refine ⟨rfl, ?_⟩
  exact claim_c9_single_file
    ((fun _ _ => Except.ok (⟨"m.ncf",
      [⟨"main", [], [Statement.bundleCall "helper" []], "m.ncf"⟩,
       ⟨"helper", [], [], "m.ncf"⟩]⟩ : SourceUnit)) :
      String → String → Except SyntaxError SourceUnit) "m.ncf" "text" _
    rfl (by decide) (by decide) (by decide)

/-- C2: for every Namespace whose bundle-call graph contains a cycle
A -> B -> A, Program::build reports a CyclicDependencyError whose
cycle_path names both A and B; for the acyclic call graph of the same
shape with one edge removed, build succeeds. -/
theorem claim_c2_cycle_detection :
    (∀ (p : PreAST) (A B : String), A ≠ B →
      B ∈ resolvedAdj p.decls A → A ∈ resolvedAdj p.decls B →
      ∃ errs, AST.from_pre_ast p = .error errs ∧ namesCycle A B errs) ∧
    (∀ (A B fA fB : String), A ≠ B →
      AST.from_pre_ast ⟨[⟨A, [], [.bundleCall B []], fA⟩, ⟨B, [], [], fB⟩]⟩ =
        .ok ⟨[⟨A, [], [.bundleCall B []], fA⟩, ⟨B, [], [], fB⟩]⟩) := by
  constructor
  · intro p A B hAB hab hba
    exact from_pre_ast_mutual_cycle hab hba hAB
  · intro A B fA fB hAB
    have hdeclB : declaredIn
        [(⟨A, [], [.bundleCall B []], fA⟩ : Declaration), ⟨B, [], [], fB⟩] B = true := by
      simp [declaredIn]
    have hadj : ∀ n, resolvedAdj
        [(⟨A, [], [.bundleCall B []], fA⟩ : Declaration), ⟨B, [], [], fB⟩] n =
        if A = n then [B] else [] := by
      intro n
      by_cases hA : A = n
      · rw [if_pos hA]
        simp [resolvedAdj, lookupName, List.find?, hA, Declaration.callTargets,
          declaredIn]
      · by_cases hB : B = n
        · rw [if_neg hA]
          simp [resolvedAdj, lookupName, List.find?, hA, hB,
            Declaration.callTargets]
        · rw [if_neg hA]
          simp [resolvedAdj, lookupName, List.find?, hA, hB]
    have hac : Acyclic (resolvedAdj
        [(⟨A, [], [.bundleCall B []], fA⟩ : Declaration), ⟨B, [], [], fB⟩]) := by
      have hchar : ∀ x y, Walks (resolvedAdj
          [(⟨A, [], [.bundleCall B []], fA⟩ : Declaration), ⟨B, [], [], fB⟩]) x y →
          x = A ∧ y = B := by
        intro x y hw
        induction hw with
        | @single y1 h =>
          rw [hadj x] at h
          by_cases hx : A = x
          · rw [if_pos hx] at h
            have hy : y1 = B := by simpa using h
            exact ⟨hx.symm, hy⟩
          · rw [if_neg hx] at h
            cases h
        | @tail y1 z1 w h ih =>
          rw [hadj y1] at h
          by_cases hy : A = y1
          · exact absurd (hy.trans ih.2) hAB
          · rw [if_neg hy] at h
            cases h
      intro n hw
      obtain ⟨h1, h2⟩ := hchar n n hw
      exact hAB (h1 ▸ h2)
    apply from_pre_ast_ok_of_nil
    unfold structuralErrors
    rw [cycleErrors_nil hac]
    rw [unknownRefErrors_nil]
    · rfl
    · intro d hd c hc
      rcases List.mem_cons.1 hd with rfl | hd2
      · have hcB : c = B := by
          simpa [Declaration.callTargets] using hc
        rw [hcB]
        exact hdeclB
      · have hdB : d = (⟨B, [], [], fB⟩ : Declaration) := by simpa using hd2
        rw [hdB] at hc
        simp [Declaration.callTargets] at hc

/-- Witness for C2 at the concrete pair a and b: the two-bundle namespace
with mutual calls fails with a cycle error naming both, and the namespace
with the back edge removed builds. -/
theorem claim_c2_witness :
    (("a" : String) ≠ "b") ∧
    ("b" ∈ resolvedAdj
      [(⟨"a", [], [.bundleCall "b" []], "f"⟩ : Declaration),
       ⟨"b", [], [.bundleCall "a" []], "f"⟩] "a") ∧
    ("a" ∈ resolvedAdj
      [(⟨"a", [], [.bundleCall "b" []], "f"⟩ : Declaration),
       ⟨"b", [], [.bundleCall "a" []], "f"⟩] "b") ∧
    (∃ errs, AST.from_pre_ast
        ⟨[⟨"a", [], [.bundleCall "b" []], "f"⟩, ⟨"b", [], [.bundleCall "a" []], "f"⟩]⟩ =
        .error errs ∧ namesCycle "a" "b" errs) ∧
    (AST.from_pre_ast ⟨[⟨"a", [], [.bundleCall "b" []], "f"⟩, ⟨"b", [], [], "f"⟩]⟩ =
      .ok ⟨[⟨"a", [], [.bundleCall "b" []], "f"⟩, ⟨"b", [], [], "f"⟩]⟩) :=
  ⟨by decide, by decide, by decide,
    claim_c2_cycle_detection.1
      ⟨[⟨"a", [], [.bundleCall "b" []], "f"⟩, ⟨"b", [], [.bundleCall "a" []], "f"⟩]⟩
      "a" "b" (by decide) (by decide) (by decide),
    claim_c2_cycle_detection.2 "a" "b" "f" "f" (by decide)⟩

/-- C3: on a Program that passed semantic analysis (with the Program
invariants: distinct declaration names and an acyclic resolved call
graph), generate_all emits exactly one GeneratedArtifact per reachable
bundle — every declared bundle, each exactly once, since every top-level
bundle is an entry point — in an order where no artifact for a bundle B is
emitted before the artifacts of every bundle that B calls. -/
theorem claim_c3_generate_topological (ast : AST)
    (_han : ast.analyze = .ok ())
    (hnd : (ast.decls.map (·.name)).Nodup)
    (hacy : acyclicb ast.decls = true) :
    ∃ arts, CFEngine.new.generate_all ast = (.ok (), ⟨arts⟩) ∧
      (arts.map (·.bundle)).Nodup ∧
      (∀ n, n ∈ arts.map (·.bundle) ↔ n ∈ ast.decls.map (·.name)) ∧
      (∀ l1 a l2, arts.map (·.bundle) = l1 ++ a :: l2 →
        ∀ c ∈ resolvedAdj ast.decls a, c ∈ l1) := by
  have hac := acyclicb_sound hnd hacy
  obtain ⟨hmem, hndo, htopo⟩ := emissionOrder_spec hac
  have hb : ((emissionOrder ast).map
      (fun n => (⟨n, renderBundle ast.decls n, true⟩ : GeneratedArtifact))).map
      (·.bundle) = emissionOrder ast := by
    rw [List.map_map]
    exact List.map_id'' (fun a => rfl) _
  refine ⟨(emissionOrder ast).map
    (fun n => ⟨n, renderBundle ast.decls n, true⟩), ?_, ?_, ?_, ?_⟩
  · simp [CFEngine.generate_all, CFEngine.new]
  · rw [hb]
    exact hndo
  · intro n
    rw [hb]
    exact hmem n
  · intro l1 a l2 h c hc
    rw [hb] at h
    exact htopo l1 a l2 h c hc

/-- Witness for C3 at a concrete two-bundle program where main calls
helper. -/
theorem claim_c3_witness :
    ((AST.mk [⟨"main", [], [Statement.bundleCall "helper" []], "f"⟩,
        ⟨"helper", [], [], "f"⟩]).analyze = .ok ()) ∧
    (((AST.mk [⟨"main", [], [Statement.bundleCall "helper" []], "f"⟩,
        ⟨"helper", [], [], "f"⟩]).decls.map (·.name)).Nodup) ∧
    (acyclicb (AST.mk [⟨"main", [], [Statement.bundleCall "helper" []], "f"⟩,
        ⟨"helper", [], [], "f"⟩]).decls = true) ∧
    (∃ arts, CFEngine.new.generate_all
        (AST.mk [⟨"main", [], [Statement.bundleCall "helper" []], "f"⟩,
          ⟨"helper", [], [], "f"⟩]) = (.ok (), ⟨arts⟩) ∧
      (arts.map (·.bundle)).Nodup ∧
      (∀ n, n ∈ arts.map (·.bundle) ↔
        n ∈ (AST.mk [⟨"main", [], [Statement.bundleCall "helper" []], "f"⟩,
          ⟨"helper", [], [], "f"⟩]).decls.map (·.name)) ∧
      (∀ l1 a l2, arts.map (·.bundle) = l1 ++ a :: l2 →
        ∀ c ∈ resolvedAdj (AST.mk
          [⟨"main", [], [Statement.bundleCall "helper" []], "f"⟩,
           ⟨"helper", [], [], "f"⟩]).decls a, c ∈ l1)) :=
  ⟨by rfl, by decide, by decide,
    claim_c3_generate_topological
      (AST.mk [⟨"main", [], [Statement.bundleCall "helper" []], "f"⟩,
        ⟨"helper", [], [], "f"⟩]) (by rfl) (by decide) (by decide)⟩

/-- C5: the driver runs the stages in the fixed order Parser, Aggregator,
Resolver, Analyzer, Generator — the executed-stage trace is always a
prefix of that order — and a stage runs exactly when every earlier stage
succeeded on the complete output of its predecessor. -/
theorem claim_c5_pipeline_order
    (parse : String → String → Except SyntaxError SourceUnit)
    (filename content : String) :
    (∃ k, 1 ≤ k ∧ k ≤ 5 ∧ (runPipeline parse filename content).1 = allStages.take k) ∧
    (Stage.aggregatorStage ∈ (runPipeline parse filename content).1 ↔
      ∃ su, parse filename content = .ok su) ∧
    (Stage.resolverStage ∈ (runPipeline parse filename content).1 ↔
      ∃ su p2, parse filename content = .ok su ∧
        PreAST.new.add_parsed_file filename su = (.ok (), p2)) ∧
    (Stage.analyzerStage ∈ (runPipeline parse filename content).1 ↔
      ∃ su p2 ast, parse filename content = .ok su ∧
        PreAST.new.add_parsed_file filename su = (.ok (), p2) ∧
        AST.from_pre_ast p2 = .ok ast) ∧
    (Stage.generatorStage ∈ (runPipeline parse filename content).1 ↔
      ∃ su p2 ast, parse filename content = .ok su ∧
        PreAST.new.add_parsed_file filename su = (.ok (), p2) ∧
        AST.from_pre_ast p2 = .ok ast ∧ ast.analyze = .ok ()) := by
  cases hp : parse filename content with
  | error e =>
    have htr : runPipeline parse filename content =
        ([.parserStage], .error (.duringParsing e)) := by
      simp only [runPipeline, hp]
    rw [htr]
    refine ⟨⟨1, by omega, by omega, rfl⟩, ?_, ?_, ?_, ?_⟩
    · simp [allStages, hp]
    · simp [allStages, hp]
    · simp [allStages, hp]
    · simp [allStages, hp]
  | ok su =>
    rcases hadd : PreAST.new.add_parsed_file filename su with ⟨r, p2⟩
    cases r with
    | error e2 =>
      have htr : runPipeline parse filename content =
          ([.parserStage, .aggregatorStage], .error (.duringInsertion e2)) := by
        simp only [runPipeline, hp, hadd]
      rw [htr]
      refine ⟨⟨2, by omega, by omega, rfl⟩, ?_, ?_, ?_, ?_⟩
      · simp [allStages, hp]
      · simp [allStages, hp, hadd]
      · simp [allStages, hp, hadd]
      · simp [allStages, hp, hadd]
    | ok u =>
      cases hfa : AST.from_pre_ast p2 with
      | error es =>
        have htr : runPipeline parse filename content =
            ([.parserStage, .aggregatorStage, .resolverStage],
              .error (.duringStructure es)) := by
          simp only [runPipeline, hp, hadd, hfa]
        rw [htr]
        refine ⟨⟨3, by omega, by omega, rfl⟩, ?_, ?_, ?_, ?_⟩
        · simp [allStages, hp]
        · simp [allStages, hp, hadd]
        · simp [allStages, hp, hadd, hfa]
        · simp [allStages, hp, hadd, hfa]
      | ok ast =>
        cases han : ast.analyze with
        | error es2 =>
          have htr : runPipeline parse filename content =
              ([.parserStage, .aggregatorStage, .resolverStage, .analyzerStage],
                .error (.duringAnalysis es2)) := by
            simp only [runPipeline, hp, hadd, hfa, han]
          rw [htr]
          refine ⟨⟨4, by omega, by omega, rfl⟩, ?_, ?_, ?_, ?_⟩
          · simp [allStages, hp]
          · simp [allStages, hp, hadd]
          · simp [allStages, hp, hadd, hfa]
          · simp [allStages, hp, hadd, hfa, han]
        | ok u2 =>
          have htr : runPipeline parse filename content = (allStages, .ok ()) := by
            simp only [runPipeline, hp, hadd, hfa, han, CFEngine.generate_all]
          rw [htr]
          refine ⟨⟨5, by omega, by omega, rfl⟩, ?_, ?_, ?_, ?_⟩
          · simp [allStages, hp]
          · simp [allStages, hp, hadd]
          · simp [allStages, hp, hadd, hfa]
          · simp [allStages, hp, hadd, hfa, han]
